import Mathlib

/-!
Verification of the Tapo URL-refactoring script
(`src/Ouroboros.Providers/Providers/Tapo/refactor.py`).

The script reads two C# files, applies five chained `re.sub` substitutions
(each rewriting the separator `&` before a known first query parameter to
`?`), writes the results back, and prints `Fixed URL constructions`.

We embed the five regular expressions directly:
* rules 1-4 have shape `(l9\d+/PATH)&(PARAM)` with literal `PATH`/`PARAM`;
  matching is deterministic because `\d+` is followed by `/`, which is not
  a digit, so the greedy digit run never backtracks;
* rule 5 is `(p\d+/get-[^"]+)&(start_date=)`; the greedy `[^"]+` backtracks,
  which we model by searching for the largest split point `k` such that the
  first `k` characters contain no double quote and `&start_date=` follows.

`\d` is modelled as an ASCII decimal digit (the target files are ASCII C#
sources).  Text is modelled as `List Char`; `re.sub` replaces every
non-overlapping occurrence scanning left to right, which `subst` mirrors.
-/

namespace Refactor

/-- Strip a literal prefix from a character list; `none` on mismatch.
This models matching a literal fragment of a regular expression. -/
def dropLit : List Char → List Char → Option (List Char)
  | [], s => some s
  | _ :: _, [] => none
  | c :: cs, d :: ds => if c = d then dropLit cs ds else none

/-- Maximal run of decimal digits at the front of a list, with the rest.
Models a greedy `\d+` (or `\d*`) whose continuation cannot be a digit. -/
def digitSpan : List Char → List Char × List Char
  | [] => ([], [])
  | c :: cs =>
    if c.isDigit then (c :: (digitSpan cs).1, (digitSpan cs).2)
    else ([], c :: cs)

/-- Path literal of rule 1: `(l9\d+/set-brightness)&(level=)`. -/
def pathB : List Char := "/set-brightness".toList

/-- Parameter literal of rule 1. -/
def paramB : List Char := "level=".toList

/-- Path literal of rule 2: `(l9\d+/set-hue-saturation)&(hue=)`. -/
def pathH : List Char := "/set-hue-saturation".toList

/-- Parameter literal of rule 2. -/
def paramH : List Char := "hue=".toList

/-- Path literal of rule 3: `(l9\d+/set-color-temperature)&(color_temperature=)`. -/
def pathC : List Char := "/set-color-temperature".toList

/-- Parameter literal of rule 3. -/
def paramC : List Char := "color_temperature=".toList

/-- Path literal of rule 4: `(l9\d+/set-lighting-effect)&(lighting_effect=)`. -/
def pathE : List Char := "/set-lighting-effect".toList

/-- Parameter literal of rule 4. -/
def paramE : List Char := "lighting_effect=".toList

/-- Literal `/get-` of rule 5. -/
def getLit : List Char := "/get-".toList

/-- Parameter literal of rule 5: `start_date=`. -/
def paramS : List Char := "start_date=".toList

/-- The separator-plus-parameter fragment `&start_date=` of rule 5. -/
def sdLit : List Char := '&' :: paramS

/-- A substitution rule of the script: either one of the four
`(l9\d+/path)&(param)` rules, or the `(p\d+/get-[^"]+)&(start_date=)` rule. -/
inductive Rule
  | L (path param : List Char)
  | P

/-- The parameter literal captured as group 2 of a rule. -/
def Rule.param : Rule → List Char
  | .L _ q => q
  | .P => paramS

/-- Rule 1 of the script: `(l9\d+/set-brightness)&(level=)` ↦ `\1?\2`. -/
def rule1 : Rule := .L pathB paramB

/-- Rule 2: `(l9\d+/set-hue-saturation)&(hue=)` ↦ `\1?\2`. -/
def rule2 : Rule := .L pathH paramH

/-- Rule 3: `(l9\d+/set-color-temperature)&(color_temperature=)` ↦ `\1?\2`. -/
def rule3 : Rule := .L pathC paramC

/-- Rule 4: `(l9\d+/set-lighting-effect)&(lighting_effect=)` ↦ `\1?\2`. -/
def rule4 : Rule := .L pathE paramE

/-- Rule 5: `(p\d+/get-[^"]+)&(start_date=)` ↦ `\1?\2`. -/
def rule5 : Rule := .P

/-- Match an `l9\d+/path&param` rule at the head of `s`.  On success returns
(group 1, text after the match).  The digit run is greedy; since `path`
starts with `/`, no backtracking into the digits can occur. -/
def tryMatchL (path param : List Char) (s : List Char) :
    Option (List Char × List Char) :=
  match s with
  | c1 :: c2 :: rest =>
    if c1 = 'l' then
      if c2 = '9' then
        match digitSpan rest with
        | ([], _) => none
        | (d0 :: ds, rest2) =>
          match dropLit path rest2 with
          | none => none
          | some rest3 =>
            match dropLit ('&' :: param) rest3 with
            | none => none
            | some rest4 => some ('l' :: '9' :: ((d0 :: ds) ++ path), rest4)
      else none
    else none
  | _ => none

/-- Backtracking condition for rule 5 at split point `k` of the text after
`/get-`: the first `k` characters are the `[^"]+` group (no double quote)
and `&start_date=` follows. -/
def condP (rest : List Char) (k : Nat) : Bool :=
  (rest.take k).all (fun c => c ≠ '"') && (dropLit sdLit (rest.drop k)).isSome

/-- Try split points from `k` down to `1` (greedy: largest first). -/
def findKAux (rest : List Char) : Nat → Option Nat
  | 0 => none
  | k + 1 => if condP rest (k + 1) then some (k + 1) else findKAux rest k

/-- Greedy split point of `[^"]+` before `&start_date=`, if any. -/
def findK (rest : List Char) : Option Nat :=
  findKAux rest rest.length

/-- Match `p\d+/get-[^"]+&start_date=` at the head of `s`. -/
def tryMatchP (s : List Char) : Option (List Char × List Char) :=
  match s with
  | [] => none
  | c :: rest0 =>
    if c = 'p' then
      match digitSpan rest0 with
      | ([], _) => none
      | (d0 :: ds, rest1) =>
        match dropLit getLit rest1 with
        | none => none
        | some rest2 =>
          match findK rest2 with
          | none => none
          | some k =>
            match dropLit sdLit (rest2.drop k) with
            | none => none
            | some rest4 =>
              some ('p' :: ((d0 :: ds) ++ getLit ++ rest2.take k), rest4)
    else none

/-- Match a rule at the head of `s`; `some (g, rest)` means the matched text
is `g ++ '&' :: param ++ rest` and the replacement is `g ++ '?' :: param`. -/
def tryMatch : Rule → List Char → Option (List Char × List Char)
  | .L path param, s => tryMatchL path param s
  | .P, s => tryMatchP s

/-- Fuel-driven scanner: at each position try the rule; on a match emit the
replacement and continue after the match, otherwise keep the character and
move one position right.  This is the semantics of `re.sub` with
replacement `\1?\2` (matches are never empty, so one unit of fuel per
consumed character suffices). -/
def substF (r : Rule) : Nat → List Char → List Char
  | 0, s => s
  | fuel + 1, s =>
    match tryMatch r s with
    | some (g, rest) => g ++ '?' :: r.param ++ substF r fuel rest
    | none =>
      match s with
      | [] => []
      | c :: cs => c :: substF r fuel cs

/-- Replace every non-overlapping occurrence of the rule's pattern,
scanning left to right: `re.sub(pattern, r'\1?\2', s)`. -/
def subst (r : Rule) (s : List Char) : List Char :=
  substF r s.length s

/-- The per-file transformation of the script: the five `re.sub` calls in
source order, each applied to the previous result (`content` is rebound
after every call). -/
def fixUrls (s : List Char) : List Char :=
  let content := s
  let content := subst rule1 content
  let content := subst rule2 content
  let content := subst rule3 content
  let content := subst rule4 content
  let content := subst rule5 content
  content

/-- The spec's description of the per-file transformation: the sequential
composition of the five single-rule substitutions in the listed order. -/
def specChain (s : List Char) : List Char :=
  (subst rule5 ∘ subst rule4 ∘ subst rule3 ∘ subst rule2 ∘ subst rule1) s

/-! ### The program around the transformation

The script iterates over `files = ['TapoLightStripOperations.cs',
'TapoPlugOperations.cs']`, reading each file, transforming it, and writing
it back; any I/O failure propagates and aborts the run.  On completion it
prints `Fixed URL constructions`.  We model the filesystem as a content map
plus a writability predicate; a missing/unreadable file reads as `none`. -/

/-- First target file of the script. -/
def file1 : List Char := "TapoLightStripOperations.cs".toList

/-- Second target file of the script. -/
def file2 : List Char := "TapoPlugOperations.cs".toList

/-- The hardcoded target file list of the script, in order. -/
def fileList : List (List Char) := [file1, file2]

/-- Filesystem model: readable contents and writability per path. -/
structure FS where
  contents : List Char → Option (List Char)
  writable : List Char → Bool

/-- An I/O failure of the script: unreadable or unwritable target file. -/
inductive IOErr
  | unreadable (f : List Char)
  | unwritable (f : List Char)
deriving DecidableEq

/-- Overwrite one file's contents. -/
def writeFS (fs : FS) (name text : List Char) : FS :=
  { contents := fun n => if n = name then some text else fs.contents n
    writable := fs.writable }

/-- One iteration of the script's loop: read the file, transform, write
back.  Read failure and write failure each abort with the error. -/
def processFile (fs : FS) (name : List Char) : Except IOErr FS :=
  match fs.contents name with
  | none => .error (.unreadable name)
  | some text =>
    if fs.writable name then .ok (writeFS fs name (fixUrls text))
    else .error (.unwritable name)

/-- The script's loop over the file list.  Returns the filesystem as left
behind (earlier writes persist) and the error that aborted the run, if
any. -/
def runFiles : List (List Char) → FS → FS × Option IOErr
  | [], fs => (fs, none)
  | f :: rest, fs =>
    match processFile fs f with
    | .ok fs' => runFiles rest fs'
    | .error e => (fs, some e)

/-- The whole script: process both files; on success print the fixed
confirmation line.  The third component is the list of stdout lines. -/
def runProgram (fs : FS) : FS × Option IOErr × List (List Char) :=
  let r := runFiles fileList fs
  match r.2 with
  | none => (r.1, none, ["Fixed URL constructions".toList])
  | some e => (r.1, some e, [])

/-! ### Basic lemmas about the matchers -/

theorem dropLit_some {p x y : List Char} (h : dropLit p x = some y) :
    x = p ++ y := by
  induction p generalizing x with
  | nil => simpa [dropLit] using h
  | cons c cs ih =>
    cases x with
    | nil => simp [dropLit] at h
    | cons d ds =>
      simp only [dropLit] at h
      split at h
      · next hcd => subst hcd; simpa using ih h
      · exact absurd h (by simp)

theorem dropLit_self (p y : List Char) : dropLit p (p ++ y) = some y := by
  induction p with
  | nil => rfl
  | cons c cs ih => simp [dropLit, ih]

theorem digitSpan_eq {xs a b : List Char} (h : digitSpan xs = (a, b)) :
    xs = a ++ b ∧ a.all Char.isDigit = true := by
  induction xs generalizing a b with
  | nil =>
    simp only [digitSpan, Prod.mk.injEq] at h
    simp [← h.1, ← h.2]
  | cons c cs ih =>
    simp only [digitSpan] at h
    split at h
    · next hd =>
      simp only [Prod.mk.injEq] at h
      obtain ⟨h1, h2⟩ := h
      obtain ⟨he, hall⟩ := ih (Prod.mk.eta (p := digitSpan cs)).symm
      subst h1 h2
      constructor
      · simpa using he
      · simpa [hd] using hall
    · next hd =>
      simp only [Prod.mk.injEq] at h
      simp [← h.1, ← h.2]

/-- Maximality of the greedy digit run: an all-digit block followed by a
non-digit (or nothing) is split exactly there. -/
theorem digitSpan_append {a b : List Char} (ha : a.all Char.isDigit = true)
    (hb : ∀ c cs, b = c :: cs → c.isDigit = false) :
    digitSpan (a ++ b) = (a, b) := by
  induction a with
  | nil =>
    cases b with
    | nil => rfl
    | cons c cs => simp [digitSpan, hb c cs rfl]
  | cons c a' ih =>
    simp only [List.all_cons, Bool.and_eq_true] at ha
    simp [digitSpan, ha.1, ih ha.2]

/-- Soundness of the matchers: a successful match decomposes the input as
group 1, then the separator `&`, then the parameter literal, then the
rest.  The replacement `\1?\2` therefore only flips that one `&` to `?`. -/
theorem tryMatch_some {r : Rule} {s g rest : List Char}
    (h : tryMatch r s = some (g, rest)) :
    s = g ++ '&' :: r.param ++ rest := by
  cases r with
  | L path param =>
    simp only [tryMatch] at h
    simp only [Rule.param]
    cases s with
    | nil => simp [tryMatchL] at h
    | cons c1 s1 =>
      cases s1 with
      | nil => simp [tryMatchL] at h
      | cons c2 rest0 =>
        simp only [tryMatchL] at h
        split at h
        · next hc1 =>
          split at h
          · next hc2 =>
            split at h
            · exact absurd h (by simp)
            · next d0 ds rest2 hspan =>
              split at h
              · exact absurd h (by simp)
              · next rest3 hdrop =>
                split at h
                · exact absurd h (by simp)
                · next rest4 hdrop2 =>
                  simp only [Option.some.injEq, Prod.mk.injEq] at h
                  obtain ⟨rfl, rfl⟩ := h
                  obtain ⟨he, _⟩ := digitSpan_eq hspan
                  subst hc1 hc2
                  rw [he, dropLit_some hdrop, dropLit_some hdrop2]
                  simp
          · exact absurd h (by simp)
        · exact absurd h (by simp)
  | P =>
    simp only [tryMatch] at h
    simp only [Rule.param]
    cases s with
    | nil => simp [tryMatchP] at h
    | cons c rest0 =>
      simp only [tryMatchP] at h
      split at h
      · next hc =>
        split at h
        · exact absurd h (by simp)
        · next d0 ds rest1 hspan =>
          split at h
          · exact absurd h (by simp)
          · next rest2 hdrop =>
            split at h
            · exact absurd h (by simp)
            · next k hk =>
              split at h
              · exact absurd h (by simp)
              · next rest4 hdrop2 =>
                simp only [Option.some.injEq, Prod.mk.injEq] at h
                obtain ⟨rfl, rfl⟩ := h
                obtain ⟨he, _⟩ := digitSpan_eq hspan
                subst hc
                rw [he, dropLit_some hdrop]
                have h2 : rest2 = rest2.take k ++ ('&' :: paramS ++ rest4) := by
                  conv_lhs => rw [← List.take_append_drop k rest2]
                  rw [dropLit_some hdrop2]
                  rfl
                conv_lhs => rw [h2]
                simp
      · exact absurd h (by simp)

/-- A match consumes at least one character. -/
theorem tryMatch_rest_lt {r : Rule} {s g rest : List Char}
    (h : tryMatch r s = some (g, rest)) : rest.length < s.length := by
  rw [tryMatch_some h]
  simp only [List.append_assoc, List.length_append, List.length_cons]
  omega

theorem substF_congr (r : Rule) :
    ∀ f₁ f₂ s, s.length ≤ f₁ → s.length ≤ f₂ → substF r f₁ s = substF r f₂ s := by
  intro f₁
  induction f₁ with
  | zero =>
    intro f₂ s h₁ _
    have : s = [] := List.length_eq_zero.mp (Nat.le_zero.mp h₁)
    subst this
    cases f₂ with
    | zero => rfl
    | succ f => cases hm : tryMatch r [] with
      | some v =>
        exact absurd (@tryMatch_rest_lt r ([] : List Char) v.1 v.2 (by simpa using hm))
          (by simp)
      | none => simp [substF, hm]
  | succ f₁ ih =>
    intro f₂ s h₁ h₂
    cases f₂ with
    | zero =>
      have : s = [] := List.length_eq_zero.mp (Nat.le_zero.mp h₂)
      subst this
      cases hm : tryMatch r [] with
      | some v =>
        exact absurd (@tryMatch_rest_lt r ([] : List Char) v.1 v.2 (by simpa using hm))
          (by simp)
      | none => simp [substF, hm]
    | succ f₂ =>
      cases hm : tryMatch r s with
      | some v =>
        obtain ⟨g, rest⟩ := v
        have hlt := tryMatch_rest_lt hm
        simp only [substF, hm]
        rw [ih f₂ rest (by omega) (by omega)]
      | none =>
        cases s with
        | nil => simp [substF, hm]
        | cons c cs =>
          simp only [substF, hm]
          rw [ih f₂ cs (by simpa using Nat.le_of_succ_le_succ h₁)
            (by simpa using Nat.le_of_succ_le_succ h₂)]

theorem subst_nil (r : Rule) : subst r [] = [] := rfl

/-- Unfolding `subst` when the rule does not match at the current
position: keep the character and continue one position to the right. -/
theorem subst_cons_none {r : Rule} {c : Char} {cs : List Char}
    (h : tryMatch r (c :: cs) = none) : subst r (c :: cs) = c :: subst r cs := by
  simp only [subst, List.length_cons, substF, h]

/-- Unfolding `subst` on a match: emit group 1, `?`, the parameter, and
continue scanning after the matched text. -/
theorem subst_match {r : Rule} {s g rest : List Char}
    (h : tryMatch r s = some (g, rest)) :
    subst r s = g ++ '?' :: r.param ++ subst r rest := by
  have hlt := tryMatch_rest_lt h
  cases hs : s.length with
  | zero => rw [hs] at hlt; omega
  | succ n =>
    simp only [subst, hs, substF, h]
    rw [substF_congr r n rest.length rest (by omega) le_rfl]

/-! ### Where a match can start -/

/-- The character every match of a rule starts with (`l` for the four
`l9\d+` rules, `p` for the `p\d+/get-` rule). -/
def Rule.sc : Rule → Char
  | .L _ _ => 'l'
  | .P => 'p'

theorem tryMatch_none_of_head {r : Rule} {c : Char} {cs : List Char}
    (h : c ≠ r.sc) : tryMatch r (c :: cs) = none := by
  cases r with
  | L path param =>
    simp only [Rule.sc] at h
    cases cs with
    | nil => rfl
    | cons c2 rest => simp [tryMatch, tryMatchL, h]
  | P =>
    simp only [Rule.sc] at h
    simp [tryMatch, tryMatchP, h]

theorem tryMatchL_none_of_second {path param : List Char} {c1 c2 : Char}
    {rest : List Char} (h : c2 ≠ '9') :
    tryMatchL path param (c1 :: c2 :: rest) = none := by
  simp [tryMatchL, h]

/-- No suffix of `s` matches the rule: the text contains no occurrence of
the rule's pattern at all. -/
def noMatch (r : Rule) : List Char → Bool
  | [] => true
  | c :: cs => (tryMatch r (c :: cs)).isNone && noMatch r cs

/-- A rule that finds zero matches is a no-op on the buffer. -/
theorem subst_eq_of_noMatch {r : Rule} {s : List Char}
    (h : noMatch r s = true) : subst r s = s := by
  induction s with
  | nil => rfl
  | cons c cs ih =>
    simp only [noMatch, Bool.and_eq_true, Option.isNone_iff_eq_none] at h
    rw [subst_cons_none h.1, ih h.2]

theorem noMatch_of_ne_sc {r : Rule} {u : List Char}
    (h : ∀ c ∈ u, c ≠ r.sc) : noMatch r u = true := by
  induction u with
  | nil => rfl
  | cons c u' ih =>
    simp only [noMatch, Bool.and_eq_true, Option.isNone_iff_eq_none]
    exact ⟨tryMatch_none_of_head (h c (by simp)),
      ih fun d hd => h d (by simp [hd])⟩

/-- Scanning skips over a block that contains no character a match of the
rule could start with. -/
theorem subst_append_of_ne_sc {r : Rule} {u t : List Char}
    (h : ∀ c ∈ u, c ≠ r.sc) : subst r (u ++ t) = u ++ subst r t := by
  induction u with
  | nil => rfl
  | cons c u' ih =>
    have hc : tryMatch r (c :: (u' ++ t)) = none :=
      tryMatch_none_of_head (h c (by simp))
    rw [List.cons_append, subst_cons_none hc, ih fun d hd => h d (by simp [hd])]
    simp

theorem subst_eq_self_of_ne_sc {r : Rule} {u : List Char}
    (h : ∀ c ∈ u, c ≠ r.sc) : subst r u = u :=
  subst_eq_of_noMatch (noMatch_of_ne_sc h)

/-- Scanning skips over a block `a` none of whose nonempty suffixes starts
a match, even allowing the match to extend into the continuation `t`. -/
theorem subst_append_of_seg {r : Rule} {a t : List Char}
    (h : ∀ mid, mid <:+ a → mid ≠ [] → tryMatch r (mid ++ t) = none) :
    subst r (a ++ t) = a ++ subst r t := by
  induction a with
  | nil => rfl
  | cons c a' ih =>
    have hc : tryMatch r ((c :: a') ++ t) = none :=
      h (c :: a') (List.suffix_refl _) (by simp)
    rw [List.cons_append] at hc
    rw [List.cons_append, subst_cons_none hc]
    rw [ih fun mid hmid hne => h mid (List.suffix_cons_iff.mpr (Or.inr hmid)) hne]
    simp

/-- `noMatch` for a block followed by a match-free continuation, given the
block-suffix condition of `subst_append_of_seg`. -/
theorem noMatch_append_of_seg {r : Rule} {a t : List Char}
    (h : ∀ mid, mid <:+ a → mid ≠ [] → tryMatch r (mid ++ t) = none)
    (ht : noMatch r t = true) : noMatch r (a ++ t) = true := by
  induction a with
  | nil => simpa using ht
  | cons c a' ih =>
    have hc : tryMatch r (c :: (a' ++ t)) = none := by
      have := h (c :: a') (List.suffix_refl _) (by simp)
      simpa using this
    simp only [List.cons_append, noMatch, Bool.and_eq_true,
      Option.isNone_iff_eq_none]
    exact ⟨hc, ih fun mid hmid hne => h mid (List.suffix_cons_iff.mpr (Or.inr hmid)) hne⟩

/-! ### Exact matches at the head of structured text -/

theorem isDigit_ne {c d : Char} (h : c.isDigit = true) (hd : d.isDigit = false) :
    c ≠ d := by
  intro he
  rw [he, hd] at h
  cases h

/-- Rules 1-4 match exactly the fragment `l9<digits>/path&param` whenever it
occurs, whatever follows: the digit run is delimited by the non-digit head
of `path`, so no interaction with the continuation is possible. -/
theorem tryMatchL_exact {path param d t : List Char} {d0 : Char}
    (hd : (d0 :: d).all Char.isDigit = true)
    (hpath : ∀ c cs, path = c :: cs → c.isDigit = false) :
    tryMatchL path param ('l' :: '9' :: ((d0 :: d) ++ path ++ '&' :: param ++ t))
      = some ('l' :: '9' :: ((d0 :: d) ++ path), t) := by
  have hspan : digitSpan ((d0 :: d) ++ (path ++ '&' :: param ++ t))
      = (d0 :: d, path ++ '&' :: param ++ t) := by
    refine digitSpan_append hd ?_
    intro c cs hcs
    cases path with
    | nil =>
      simp only [List.nil_append, List.cons_append] at hcs
      cases hcs
      rfl
    | cons a as =>
      simp only [List.cons_append] at hcs
      have hca : c = a := by injection hcs with h1 h2; exact h1.symm
      subst hca
      exact hpath c as rfl
  have h1 : dropLit path (path ++ ('&' :: (param ++ t))) = some ('&' :: (param ++ t)) := by
    have := dropLit_self path ('&' :: (param ++ t))
    simpa using this
  have h2 : dropLit ('&' :: param) ('&' :: (param ++ t)) = some t := by
    have := dropLit_self ('&' :: param) t
    simpa using this
  simp only [List.append_assoc, List.cons_append] at hspan ⊢
  simp [tryMatchL, hspan, h1, h2]

theorem findKAux_le {rest : List Char} {n k : Nat}
    (h : findKAux rest n = some k) : 1 ≤ k ∧ k ≤ n := by
  induction n with
  | zero => simp [findKAux] at h
  | succ n ih =>
    simp only [findKAux] at h
    split at h
    · cases h; omega
    · have := ih h; omega

theorem findKAux_eq_some {rest : List Char} {n kstar : Nat}
    (hc : condP rest kstar = true) (h1 : 1 ≤ kstar) (hn : kstar ≤ n)
    (hmax : ∀ j, kstar < j → j ≤ n → condP rest j = false) :
    findKAux rest n = some kstar := by
  induction n with
  | zero => omega
  | succ n ih =>
    rcases Nat.lt_or_ge kstar (n + 1) with hlt | hge
    · have hfalse : condP rest (n + 1) = false := hmax (n + 1) hlt le_rfl
      simp only [findKAux, hfalse]
      simp only [Bool.false_eq_true, if_false]
      exact ih (by omega) fun j hj hj' => hmax j hj (by omega)
    · have : kstar = n + 1 := by omega
      subst this
      simp [findKAux, hc]

/-- The greedy split point for `[^"]+&start_date=` on text of the shape
`body ++ &start_date= ++ t`, where `body` has no quote and `t` is empty or
starts with a quote, is exactly `body.length`: the backtracking search
cannot lock onto any later position. -/
theorem findK_exact {body t : List Char} (hb : body ≠ [])
    (hbq : body.all (fun c => c ≠ '"') = true)
    (ht : t = [] ∨ ∃ t', t = '"' :: t') :
    findK (body ++ '&' :: paramS ++ t) = some body.length := by
  have hsd : ('&' :: paramS ++ t) = sdLit ++ t := rfl
  simp only [List.all_eq_true, decide_eq_true_eq] at hbq
  have hcond : condP (body ++ '&' :: paramS ++ t) body.length = true := by
    simp only [condP, List.append_assoc, hsd]
    rw [List.take_left, List.drop_left]
    simp only [Bool.and_eq_true, List.all_eq_true, decide_eq_true_eq]
    exact ⟨hbq, by simp [dropLit_self]⟩
  have hlen1 : 1 ≤ body.length := by
    cases body with
    | nil => exact absurd rfl hb
    | cons a l => simp
  refine findKAux_eq_some hcond hlen1 (by simp) ?_
  intro j hj hjn
  rcases Nat.lt_or_ge (body.length + 12) j with hbig | hsmall
  · -- `j` is beyond `&start_date=`: the taken block contains the quote
    rcases ht with rfl | ⟨t', rfl⟩
    · -- impossible: `j` exceeds the total length
      exfalso
      have : (body ++ '&' :: paramS ++ []).length = body.length + 12 := by
        simp [paramS]
      omega
    · have hlen2 : (body ++ '&' :: paramS).length = body.length + 12 := by
        simp [paramS]
      obtain ⟨i, hi1, rfl⟩ :
          ∃ i, 1 ≤ i ∧ j = (body ++ '&' :: paramS).length + i :=
        ⟨j - (body ++ '&' :: paramS).length, by omega, by omega⟩
      have hquote :
          '"' ∈ (body ++ '&' :: paramS ++ '"' :: t').take
            ((body ++ '&' :: paramS).length + i) := by
        have hsplit : body ++ '&' :: paramS ++ '"' :: t'
            = (body ++ '&' :: paramS) ++ '"' :: t' := by simp
        rw [hsplit, List.take_append]
        refine List.mem_append_right _ ?_
        cases i with
        | zero => omega
        | succ m => simp [List.take_cons]
      simp only [condP, Bool.and_eq_false_iff]
      left
      rw [List.all_eq_false]
      exact ⟨'"', hquote, by simp⟩
  · -- `j` lands inside `&start_date=`: the literal cannot match there
    have hdrop : (body ++ '&' :: paramS ++ t).drop j
        = (sdLit ++ t).drop (j - body.length) := by
      rw [List.append_assoc, hsd]
      have hj2 : j = body.length + (j - body.length) := by omega
      conv_lhs => rw [hj2]
      rw [List.drop_append]
    have hnone : dropLit sdLit ((sdLit ++ t).drop (j - body.length)) = none := by
      have hi1 : 1 ≤ j - body.length := by omega
      have hi2 : j - body.length ≤ 12 := by omega
      set i := j - body.length with hi
      clear_value i
      rcases ht with rfl | ⟨t', rfl⟩ <;>
        · interval_cases i <;> rfl
    simp only [condP, Bool.and_eq_false_iff]
    right
    rw [hdrop, hnone]
    rfl

/-- Rule 5 matches exactly `p<digits>/get-<body>&start_date=` when `body`
is a nonempty quote-free block and the continuation is empty or starts
with a quote (which stops the greedy `[^"]+` from reaching further). -/
theorem tryMatchP_exact {d body t : List Char} {d0 : Char}
    (hd : (d0 :: d).all Char.isDigit = true) (hb : body ≠ [])
    (hbq : body.all (fun c => c ≠ '"') = true)
    (ht : t = [] ∨ ∃ t', t = '"' :: t') :
    tryMatchP ('p' :: ((d0 :: d) ++ getLit ++ body ++ '&' :: paramS ++ t))
      = some ('p' :: ((d0 :: d) ++ getLit ++ body), t) := by
  have hspan : digitSpan ((d0 :: d) ++ (getLit ++ (body ++ '&' :: paramS ++ t)))
      = (d0 :: d, getLit ++ (body ++ '&' :: paramS ++ t)) := by
    refine digitSpan_append hd ?_
    intro c cs hcs
    rw [show getLit ++ (body ++ '&' :: paramS ++ t)
      = '/' :: ("get-".toList ++ (body ++ '&' :: paramS ++ t)) from rfl] at hcs
    cases hcs
    rfl
  have hfind := findK_exact hb hbq ht
  have hdropsd : dropLit sdLit ((body ++ '&' :: paramS ++ t).drop body.length)
      = some t := by
    rw [List.append_assoc, show ('&' :: paramS ++ t) = sdLit ++ t from rfl,
      List.drop_left]
    exact dropLit_self _ _
  have htake : (body ++ '&' :: paramS ++ t).take body.length = body := by
    rw [List.append_assoc, List.take_left]
  have hdropget :
      dropLit getLit (getLit ++ (body ++ ('&' :: (paramS ++ t))))
        = some (body ++ ('&' :: (paramS ++ t))) := by
    have := dropLit_self getLit (body ++ ('&' :: (paramS ++ t)))
    simpa using this
  have hdropsd2 : dropLit sdLit ('&' :: (paramS ++ t)) = some t := by
    have := dropLit_self sdLit t
    simpa [sdLit] using this
  simp only [List.append_assoc, List.cons_append] at hspan hfind hdropsd htake ⊢
  simp [tryMatchP, hspan, hdropget, hfind, hdropsd, hdropsd2, htake]

/-! ### The frame relation: the transformation only flips `&` to `?` -/

/-- `AmpRel s t`: `t` has the same length as `s` and agrees with `s` at
every position, except that some characters that are `&` in `s` may be
`?` in `t`.  Every `re.sub` of the script relates its input to its output
this way, since the replacement `\1?\2` reproduces the match except for
the one separator character. -/
inductive AmpRel : List Char → List Char → Prop
  | nil : AmpRel [] []
  | keep (c : Char) {s t : List Char} : AmpRel s t → AmpRel (c :: s) (c :: t)
  | fix {s t : List Char} : AmpRel s t → AmpRel ('&' :: s) ('?' :: t)

theorem AmpRel.refl : ∀ s, AmpRel s s
  | [] => .nil
  | c :: cs => .keep c (AmpRel.refl cs)

theorem AmpRel.append {a a' b b' : List Char} (ha : AmpRel a a')
    (hb : AmpRel b b') : AmpRel (a ++ b) (a' ++ b') := by
  induction ha with
  | nil => exact hb
  | keep c _ ih => exact .keep c ih
  | fix _ ih => exact .fix ih

theorem AmpRel.length_eq {s t : List Char} (h : AmpRel s t) :
    s.length = t.length := by
  induction h with
  | nil => rfl
  | keep c _ ih => simp [ih]
  | fix _ ih => simp [ih]

theorem AmpRel.trans {s t u : List Char} (h1 : AmpRel s t) (h2 : AmpRel t u) :
    AmpRel s u := by
  induction h1 generalizing u with
  | nil => exact h2
  | keep c hst ih =>
    cases h2 with
    | keep _ h2' => exact .keep c (ih h2')
    | fix h2' => exact .fix (ih h2')
  | fix hst ih =>
    cases h2 with
    | keep _ h2' => exact .fix (ih h2')

/-- Positional reading of `AmpRel`: at every index the output character
equals the input character, or the input is `&` and the output is `?`. -/
theorem AmpRel.getElem_eq {s t : List Char} (h : AmpRel s t) :
    ∀ i : Nat, t[i]? = s[i]? ∨ (s[i]? = some '&' ∧ t[i]? = some '?') := by
  induction h with
  | nil => intro i; left; rfl
  | keep c _ ih =>
    intro i
    cases i with
    | zero => left; simp
    | succ j => simpa using ih j
  | fix _ ih =>
    intro i
    cases i with
    | zero => right; exact ⟨by simp, by simp⟩
    | succ j => simpa using ih j

theorem AmpRel.take {s t : List Char} (h : AmpRel s t) (n : Nat) :
    AmpRel (s.take n) (t.take n) := by
  induction h generalizing n with
  | nil => simp only [List.take_nil]; exact .nil
  | keep c _ ih =>
    cases n with
    | zero => exact .nil
    | succ m => exact .keep c (ih m)
  | fix _ ih =>
    cases n with
    | zero => exact .nil
    | succ m => exact .fix (ih m)

theorem AmpRel.drop {s t : List Char} (h : AmpRel s t) (n : Nat) :
    AmpRel (s.drop n) (t.drop n) := by
  induction h generalizing n with
  | nil => simp only [List.drop_nil]; exact .nil
  | keep c hst ih =>
    cases n with
    | zero => exact .keep c hst
    | succ m => exact ih m
  | fix hst ih =>
    cases n with
    | zero => exact .fix hst
    | succ m => exact ih m

/-- A `?`-free block at the front of the right side of `AmpRel` is present
verbatim at the front of the left side. -/
theorem AmpRel.of_append {s a t' : List Char} (h : AmpRel s (a ++ t'))
    (ha : ∀ c ∈ a, c ≠ '?') : ∃ s', s = a ++ s' ∧ AmpRel s' t' := by
  induction a generalizing s with
  | nil => exact ⟨s, rfl, h⟩
  | cons c a' ih =>
    rw [List.cons_append] at h
    cases h with
    | keep _ h' =>
      obtain ⟨s', rfl, hrel⟩ := ih h' fun d hd => ha d (by simp [hd])
      exact ⟨s', rfl, hrel⟩
    | fix h' => exact absurd rfl (ha '?' (by simp))

/-- Characters other than `"` stay other than `"` backwards along
`AmpRel` (an `&` behind a `?` is not a quote either). -/
theorem AmpRel.all_ne_quote {s t : List Char} (h : AmpRel s t)
    (ht : t.all (fun c => c ≠ '"') = true) : s.all (fun c => c ≠ '"') = true := by
  induction h with
  | nil => rfl
  | keep c _ ih =>
    simp only [List.all_cons, Bool.and_eq_true] at ht ⊢
    exact ⟨ht.1, ih ht.2⟩
  | fix _ ih =>
    simp only [List.all_cons, Bool.and_eq_true] at ht ⊢
    exact ⟨by simp, ih ht.2⟩

/-- Each single-rule substitution only flips separators: input and output
are `AmpRel`-related. -/
theorem ampRel_substF : ∀ (r : Rule) (n : Nat) (s : List Char), s.length ≤ n →
    AmpRel s (subst r s) := by
  intro r n
  induction n with
  | zero =>
    intro s h
    have : s = [] := List.length_eq_zero.mp (Nat.le_zero.mp h)
    subst this
    exact .nil
  | succ n ih =>
    intro s h
    cases hm : tryMatch r s with
    | some v =>
      obtain ⟨g, rest⟩ := v
      have hdec := tryMatch_some hm
      have hlt := tryMatch_rest_lt hm
      rw [subst_match hm, hdec]
      exact AmpRel.append
        (AmpRel.append (AmpRel.refl g) (AmpRel.fix (AmpRel.refl r.param)))
        (ih rest (by omega))
    | none =>
      cases s with
      | nil => exact .nil
      | cons c cs =>
        rw [subst_cons_none hm]
        exact .keep c (ih cs (by simpa using Nat.le_of_succ_le_succ h))

theorem ampRel_subst (r : Rule) (s : List Char) : AmpRel s (subst r s) :=
  ampRel_substF r s.length s le_rfl

/-- The whole five-rule transformation only flips separators. -/
theorem ampRel_fixUrls (s : List Char) : AmpRel s (fixUrls s) :=
  ((((ampRel_subst rule1 s).trans
    (ampRel_subst rule2 _)).trans
    (ampRel_subst rule3 _)).trans
    (ampRel_subst rule4 _)).trans
    (ampRel_subst rule5 _)

/-! ### Blocks in which no `l9` match can start -/

/-- `safeL xs`: no match of an `l9` rule can start at any position of
`xs`, whatever text follows `xs`: every `l` inside `xs` is followed,
still inside `xs`, by a character other than `9`. -/
def safeL : List Char → Bool
  | [] => true
  | c :: cs =>
    (if c = 'l' then
      match cs with
      | c2 :: _ => decide (c2 ≠ '9')
      | [] => false
    else true) && safeL cs

theorem safeL_append {a b : List Char} (ha : ∀ c ∈ a, c ≠ 'l')
    (hb : safeL b = true) : safeL (a ++ b) = true := by
  induction a with
  | nil => simpa using hb
  | cons c a' ih =>
    simp only [List.cons_append, safeL, Bool.and_eq_true]
    refine ⟨?_, ih fun d hd => ha d (by simp [hd])⟩
    rw [if_neg (ha c (by simp))]

/-- In a `safeL` block no `l9` rule matches at any interior position,
whatever the continuation. -/
theorem seg_of_safeL {path param xs X : List Char} (h : safeL xs = true) :
    ∀ mid, mid <:+ xs → mid ≠ [] →
      tryMatch (.L path param) (mid ++ X) = none := by
  induction xs with
  | nil =>
    intro mid hmid hne
    exact absurd (List.suffix_nil.mp hmid) hne
  | cons c cs ih =>
    intro mid hmid hne
    simp only [safeL, Bool.and_eq_true] at h
    rcases List.suffix_cons_iff.mp hmid with rfl | hmid'
    · by_cases hc : c = 'l'
      · subst hc
        rw [if_pos rfl] at h
        cases cs with
        | nil => exact absurd h.1 (by simp)
        | cons c2 cs' =>
          have hc2 : c2 ≠ '9' := by simpa using h.1
          simpa [tryMatch] using
            @tryMatchL_none_of_second path param 'l' c2 (cs' ++ X) hc2
      · exact tryMatch_none_of_head (by simpa [Rule.sc] using hc)
    · exact ih h.2 mid hmid' hne

/-- In a block without the rule's start character no match starts,
whatever the continuation. -/
theorem seg_of_ne_sc {r : Rule} {xs X : List Char}
    (h : ∀ c ∈ xs, c ≠ r.sc) :
    ∀ mid, mid <:+ xs → mid ≠ [] → tryMatch r (mid ++ X) = none := by
  intro mid hmid hne
  cases mid with
  | nil => exact absurd rfl hne
  | cons c mid' =>
    exact tryMatch_none_of_head (h c (hmid.subset (by simp)))

/-! ### Inversion and transfer for the `l9` rules -/

/-- Inversion: a successful `l9` match pins down the shape of group 1. -/
theorem tryMatchL_some_shape {path param s g rest : List Char}
    (h : tryMatchL path param s = some (g, rest)) :
    ∃ (d0 : Char) (d : List Char), (d0 :: d).all Char.isDigit = true ∧
      g = 'l' :: '9' :: ((d0 :: d) ++ path) := by
  cases s with
  | nil => simp [tryMatchL] at h
  | cons c1 s1 =>
    cases s1 with
    | nil => simp [tryMatchL] at h
    | cons c2 rest0 =>
      simp only [tryMatchL] at h
      split at h
      · split at h
        · split at h
          · exact Option.noConfusion h
          · next d0 ds rest2 hspan =>
            split at h
            · exact Option.noConfusion h
            · split at h
              · exact Option.noConfusion h
              · simp only [Option.some.injEq, Prod.mk.injEq] at h
                obtain ⟨rfl, rfl⟩ := h
                exact ⟨d0, ds, (digitSpan_eq hspan).2, rfl⟩
        · exact Option.noConfusion h
      · exact Option.noConfusion h

/-- A successful match on the right of `AmpRel` transfers to the same
match on the left: the matched text contains no `?`, so it is present
verbatim in the pre-image. -/
theorem tryMatchL_transfer {path param s t g rest' : List Char}
    (hrel : AmpRel s t)
    (hpath : ∀ c cs, path = c :: cs → c.isDigit = false)
    (hqpath : ∀ c ∈ path, c ≠ '?') (hqparam : ∀ c ∈ param, c ≠ '?')
    (h : tryMatchL path param t = some (g, rest')) :
    ∃ rest, tryMatchL path param s = some (g, rest) ∧ AmpRel rest rest' := by
  obtain ⟨d0, d, hd, rfl⟩ := tryMatchL_some_shape h
  have hdec : t = ('l' :: '9' :: ((d0 :: d) ++ path) ++ '&' :: param) ++ rest' := by
    have := tryMatch_some (r := .L path param) (by simpa [tryMatch] using h)
    simpa [Rule.param, List.append_assoc] using this
  have hq : ∀ c ∈ 'l' :: '9' :: ((d0 :: d) ++ path) ++ '&' :: param, c ≠ '?' := by
    intro c hc
    have hsplit : c = 'l' ∨ c = '9' ∨ c ∈ d0 :: d ∨ c ∈ path ∨ c = '&' ∨ c ∈ param := by
      rcases List.mem_append.mp hc with h' | h'
      · rcases List.mem_cons.mp h' with rfl | h'
        · exact Or.inl rfl
        · rcases List.mem_cons.mp h' with rfl | h'
          · exact Or.inr (Or.inl rfl)
          · rcases List.mem_append.mp h' with h' | h'
            · exact Or.inr (Or.inr (Or.inl h'))
            · exact Or.inr (Or.inr (Or.inr (Or.inl h')))
      · rcases List.mem_cons.mp h' with rfl | h'
        · exact Or.inr (Or.inr (Or.inr (Or.inr (Or.inl rfl))))
        · exact Or.inr (Or.inr (Or.inr (Or.inr (Or.inr h'))))
    rcases hsplit with rfl | rfl | h' | h' | rfl | h'
    · decide
    · decide
    · exact isDigit_ne (by
        simp only [List.all_eq_true] at hd
        exact hd c h') (by decide)
    · exact hqpath c h'
    · decide
    · exact hqparam c h'
  rw [hdec] at hrel
  obtain ⟨s', rfl, hrel'⟩ := hrel.of_append hq
  refine ⟨s', ?_, hrel'⟩
  have := @tryMatchL_exact path param d s' d0 hd hpath
  simpa [List.append_assoc] using this

/-- `noMatch` for an `l9` rule transfers forwards along `AmpRel`:
flipping separators `&` to `?` never creates a new `l9` match. -/
theorem noMatch_transfer_L {path param : List Char}
    (hpath : ∀ c cs, path = c :: cs → c.isDigit = false)
    (hqpath : ∀ c ∈ path, c ≠ '?') (hqparam : ∀ c ∈ param, c ≠ '?')
    {s t : List Char} (hrel : AmpRel s t)
    (h : noMatch (.L path param) s = true) :
    noMatch (.L path param) t = true := by
  induction hrel with
  | nil => rfl
  | keep c hrel' ih =>
    next s0 t0 =>
    simp only [noMatch, Bool.and_eq_true, Option.isNone_iff_eq_none] at h ⊢
    refine ⟨?_, ih h.2⟩
    cases hm : tryMatch (.L path param) (c :: t0) with
    | none => rfl
    | some v =>
      obtain ⟨g, rest'⟩ := v
      obtain ⟨rest, hs, -⟩ :=
        tryMatchL_transfer (.keep c hrel') hpath hqpath hqparam
          (by simpa [tryMatch] using hm)
      rw [show tryMatch (.L path param) (c :: s0) = tryMatchL path param (c :: s0)
        from rfl, hs] at h
      exact absurd h.1 (by simp)
  | fix hrel' ih =>
    simp only [noMatch, Bool.and_eq_true, Option.isNone_iff_eq_none] at h ⊢
    refine ⟨tryMatch_none_of_head ?_, ih h.2⟩
    show ('?' : Char) ≠ 'l'
    decide

/-- After the separator has been flipped, the `l9` rule no longer matches
at the start of its own replacement. -/
theorem tryMatchL_none_after_fix {path param X : List Char} {d0 : Char}
    {d : List Char} (hd : (d0 :: d).all Char.isDigit = true)
    (hpath : ∀ c cs, path = c :: cs → c.isDigit = false) :
    tryMatchL path param ('l' :: '9' :: ((d0 :: d) ++ (path ++ '?' :: X))) = none := by
  have hspan : digitSpan ((d0 :: d) ++ (path ++ '?' :: X))
      = (d0 :: d, path ++ '?' :: X) := by
    refine digitSpan_append hd ?_
    intro c cs hcs
    cases path with
    | nil =>
      simp only [List.nil_append] at hcs
      have : c = '?' := by injection hcs with h1 _; exact h1.symm
      subst this
      rfl
    | cons a as =>
      simp only [List.cons_append] at hcs
      have : c = a := by injection hcs with h1 _; exact h1.symm
      subst this
      exact hpath c as rfl
  have h1 : dropLit path (path ++ '?' :: X) = some ('?' :: X) := dropLit_self path _
  have h2 : dropLit ('&' :: param) ('?' :: X) = none := by
    simp [dropLit]
  simp only [List.cons_append] at hspan
  simp [tryMatchL, hspan, h1, h2]

/-- One pass of an `l9` rule leaves no occurrence of its own pattern: the
scan rewrote every occurrence, and flipping `&` to `?` creates none. -/
theorem noMatch_subst_L {path param : List Char}
    (hpath : ∀ c cs, path = c :: cs → c.isDigit = false)
    (hqpath : ∀ c ∈ path, c ≠ '?') (hqparam : ∀ c ∈ param, c ≠ '?')
    (hsafe : safeL (path ++ '?' :: param) = true) :
    ∀ n s, s.length ≤ n →
      noMatch (.L path param) (subst (.L path param) s) = true := by
  intro n
  induction n with
  | zero =>
    intro s h
    have : s = [] := List.length_eq_zero.mp (Nat.le_zero.mp h)
    subst this
    rfl
  | succ n ih =>
    intro s h
    cases hm : tryMatch (.L path param) s with
    | some v =>
      obtain ⟨g, rest⟩ := v
      have hlt := tryMatch_rest_lt hm
      rw [subst_match hm]
      obtain ⟨d0, d, hd, rfl⟩ := tryMatchL_some_shape (by simpa [tryMatch] using hm)
      refine noMatch_append_of_seg ?_ (ih rest (by omega))
      intro mid hmid hne
      have ha : ('l' :: '9' :: ((d0 :: d) ++ path)) ++ '?' :: Rule.param (.L path param)
          = 'l' :: ('9' :: ((d0 :: d) ++ (path ++ '?' :: param))) := by
        simp [Rule.param, List.cons_append, List.append_assoc]
      rw [ha] at hmid
      rcases List.suffix_cons_iff.mp hmid with rfl | hmid'
      · have : ('l' :: ('9' :: ((d0 :: d) ++ (path ++ '?' :: param))))
              ++ subst (.L path param) rest
            = 'l' :: '9' :: ((d0 :: d)
              ++ (path ++ '?' :: (param ++ subst (.L path param) rest))) := by
          simp [List.cons_append, List.append_assoc]
        rw [this]
        simpa [tryMatch] using
          @tryMatchL_none_after_fix path param
            (param ++ subst (.L path param) rest) d0 d hd hpath
      · refine seg_of_safeL ?_ mid hmid' hne
        have hxs : '9' :: ((d0 :: d) ++ (path ++ '?' :: param))
            = ('9' :: (d0 :: d)) ++ (path ++ '?' :: param) := by
          simp [List.cons_append]
        rw [hxs]
        refine safeL_append ?_ hsafe
        intro c hc
        rcases List.mem_cons.mp hc with rfl | hc'
        · decide
        · refine isDigit_ne ?_ (by decide)
          simp only [List.all_eq_true] at hd
          exact hd c hc'
    | none =>
      cases s with
      | nil => rfl
      | cons c cs =>
        rw [subst_cons_none hm]
        simp only [noMatch, Bool.and_eq_true, Option.isNone_iff_eq_none]
        refine ⟨?_, ih cs (by simpa using Nat.le_of_succ_le_succ h)⟩
        cases hm2 : tryMatch (.L path param) (c :: subst (.L path param) cs) with
        | none => rfl
        | some v =>
          obtain ⟨g, rest'⟩ := v
          obtain ⟨rest, hs, -⟩ :=
            tryMatchL_transfer (.keep c (ampRel_subst (.L path param) cs))
              hpath hqpath hqparam (by simpa [tryMatch] using hm2)
          rw [show tryMatch (.L path param) (c :: cs)
            = tryMatchL path param (c :: cs) from rfl, hs] at hm
          exact Option.noConfusion hm

/-! ### Occurrences of `&start_date=` and rule 5 -/

/-- Number of positions at which the fragment `&start_date=` occurs
(occurrences of this fragment can never overlap each other). -/
def countSD : List Char → Nat
  | [] => 0
  | c :: cs => (if (dropLit sdLit (c :: cs)).isSome then 1 else 0) + countSD cs

theorem dropLit_isSome_iff {p x : List Char} :
    (dropLit p x).isSome = true ↔ ∃ y, x = p ++ y := by
  constructor
  · intro h
    obtain ⟨y, hy⟩ := Option.isSome_iff_exists.mp h
    exact ⟨y, dropLit_some hy⟩
  · rintro ⟨y, rfl⟩
    simp [dropLit_self]

theorem countSD_cons_le (c : Char) (cs : List Char) :
    countSD cs ≤ countSD (c :: cs) := by
  simp only [countSD]
  omega

theorem countSD_append_le (a b : List Char) : countSD b ≤ countSD (a ++ b) := by
  induction a with
  | nil => simp
  | cons c a' ih =>
    calc countSD b ≤ countSD (a' ++ b) := ih
    _ ≤ countSD (c :: (a' ++ b)) := countSD_cons_le _ _
    _ = countSD (c :: a' ++ b) := by rw [List.cons_append]

theorem countSD_sd_append (b : List Char) :
    countSD b + 1 ≤ countSD (sdLit ++ b) := by
  have h1 : countSD (sdLit ++ b) = 1 + countSD (paramS ++ b) := by
    rw [show sdLit ++ b = '&' :: (paramS ++ b) from rfl]
    simp only [countSD]
    rw [if_pos]
    rw [show ('&' : Char) :: (paramS ++ b) = sdLit ++ b from rfl]
    simp [dropLit_self]
  have h2 := countSD_append_le paramS b
  omega

/-- A successful rule-5 match witnesses an occurrence of `&start_date=`
strictly before the remainder of the scan. -/
theorem tryMatch_count {r : Rule} {s g rest : List Char}
    (h : tryMatch r s = some (g, rest)) (hr : r.param = paramS) :
    countSD rest + 1 ≤ countSD s := by
  have hdec := tryMatch_some h
  rw [hr] at hdec
  have : s = g ++ (sdLit ++ rest) := by
    rw [hdec]
    simp [sdLit, List.append_assoc]
  rw [this]
  calc countSD rest + 1 ≤ countSD (sdLit ++ rest) := countSD_sd_append rest
  _ ≤ countSD (g ++ (sdLit ++ rest)) := countSD_append_le _ _

/-- If `&start_date=` does not occur at all, rule 5 matches nowhere. -/
theorem noMatch_P_of_countSD_zero : ∀ {s : List Char}, countSD s = 0 →
    noMatch rule5 s = true := by
  intro s
  induction s with
  | nil => intro _; rfl
  | cons c cs ih =>
    intro h
    simp only [noMatch, Bool.and_eq_true, Option.isNone_iff_eq_none]
    have hcs : countSD cs = 0 := by
      have := countSD_cons_le c cs
      omega
    refine ⟨?_, ih hcs⟩
    cases hm : tryMatch rule5 (c :: cs) with
    | none => rfl
    | some v =>
      obtain ⟨g, rest⟩ := v
      have := tryMatch_count hm rfl
      omega

/-- Flipping separators cannot create occurrences of `&start_date=`. -/
theorem countSD_le_of_ampRel {s t : List Char} (h : AmpRel s t) :
    countSD t ≤ countSD s := by
  induction h with
  | nil => exact le_rfl
  | keep c hrel ih =>
    next s0 t0 =>
    simp only [countSD]
    have hind : (if (dropLit sdLit (c :: t0)).isSome then 1 else 0)
        ≤ (if (dropLit sdLit (c :: s0)).isSome then (1 : Nat) else 0) := by
      by_cases hst : (dropLit sdLit (c :: t0)).isSome = true
      · obtain ⟨y, hy⟩ := dropLit_isSome_iff.mp hst
        have hrel2 : AmpRel (c :: s0) (sdLit ++ y) := hy ▸ AmpRel.keep c hrel
        obtain ⟨s', hs', -⟩ := hrel2.of_append (by decide)
        have hsome : (dropLit sdLit (c :: s0)).isSome = true :=
          dropLit_isSome_iff.mpr ⟨s', hs'⟩
        simp [hst, hsome]
      · simp only [Bool.not_eq_true] at hst
        simp [hst]
    omega
  | fix hrel ih =>
    next s0 t0 =>
    simp only [countSD]
    have hnone : (dropLit sdLit ('?' :: t0)).isSome = false := by
      simp [dropLit, sdLit]
    simp only [hnone, Bool.false_eq_true, if_false, Nat.zero_add]
    exact ih.trans (Nat.le_add_left _ _)

/-- Rewriting the matched separator removes one occurrence of
`&start_date=` and creates none elsewhere. -/
theorem countSD_cons (c : Char) (cs : List Char) :
    countSD (c :: cs)
      = (if (dropLit sdLit (c :: cs)).isSome then 1 else 0) + countSD cs := rfl

theorem countSD_flip : ∀ (g b : List Char),
    countSD (g ++ '?' :: (paramS ++ b)) + 1 ≤ countSD (g ++ '&' :: (paramS ++ b)) := by
  intro g
  induction g with
  | nil =>
    intro b
    rw [List.nil_append, List.nil_append, countSD_cons, countSD_cons]
    have h0 : (dropLit sdLit ('?' :: (paramS ++ b))).isSome = false := by
      simp [dropLit, sdLit]
    have h1 : (dropLit sdLit ('&' :: (paramS ++ b))).isSome = true := by
      refine dropLit_isSome_iff.mpr ⟨b, ?_⟩
      simp [sdLit]
    rw [h0, h1]
    simp only [Bool.false_eq_true, if_false, if_true]
    omega
  | cons c g' ih =>
    intro b
    rw [List.cons_append, List.cons_append, countSD_cons, countSD_cons]
    have hle :
        (if (dropLit sdLit (c :: (g' ++ '?' :: (paramS ++ b)))).isSome
          then (1 : Nat) else 0)
        ≤ (if (dropLit sdLit (c :: (g' ++ '&' :: (paramS ++ b)))).isSome
          then 1 else 0) := by
      by_cases hq : (dropLit sdLit (c :: (g' ++ '?' :: (paramS ++ b)))).isSome = true
      · obtain ⟨y, hy⟩ := dropLit_isSome_iff.mp hq
        have hrel : AmpRel (c :: (g' ++ '&' :: (paramS ++ b))) (sdLit ++ y) :=
          hy ▸ (AmpRel.keep c
            (AmpRel.append (AmpRel.refl g') (AmpRel.fix (AmpRel.refl _))))
        obtain ⟨s', hs', -⟩ := hrel.of_append (by decide)
        simp [hq, dropLit_isSome_iff.mpr ⟨s', hs'⟩]
      · simp only [Bool.not_eq_true] at hq
        simp [hq]
    have := ih b
    omega

theorem findKAux_cond {rest : List Char} {n k : Nat}
    (h : findKAux rest n = some k) : condP rest k = true := by
  induction n with
  | zero => simp [findKAux] at h
  | succ n ih =>
    simp only [findKAux] at h
    split at h
    · next hc => cases h; exact hc
    · exact ih h

theorem findKAux_isSome {rest : List Char} {k n : Nat}
    (hc : condP rest k = true) (h1 : 1 ≤ k) (hn : k ≤ n) :
    (findKAux rest n).isSome = true := by
  induction n with
  | zero => omega
  | succ n ih =>
    by_cases he : condP rest (n + 1) = true
    · simp [findKAux, he]
    · have hne : k ≠ n + 1 := fun hk => he (hk ▸ hc)
      rw [show findKAux rest (n + 1)
        = if condP rest (n + 1) = true then some (n + 1) else findKAux rest n
        from by simp [findKAux], if_neg he]
      exact ih (by omega)

/-- Inversion for rule 5: the pieces a successful match is built from. -/
theorem tryMatchP_some_shape {s g rest : List Char}
    (h : tryMatchP s = some (g, rest)) :
    ∃ (d0 : Char) (ds t2 : List Char) (k : Nat),
      (d0 :: ds).all Char.isDigit = true ∧
      s = 'p' :: ((d0 :: ds) ++ (getLit ++ t2)) ∧
      findK t2 = some k ∧
      dropLit sdLit (t2.drop k) = some rest := by
  cases s with
  | nil => simp [tryMatchP] at h
  | cons c rest0 =>
    simp only [tryMatchP] at h
    split at h
    · next hc =>
      split at h
      · exact Option.noConfusion h
      · next d0 ds rest1 hspan =>
        split at h
        · exact Option.noConfusion h
        · next rest2 hdrop =>
          split at h
          · exact Option.noConfusion h
          · next k hk =>
            split at h
            · exact Option.noConfusion h
            · next rest4 hdrop2 =>
              simp only [Option.some.injEq, Prod.mk.injEq] at h
              obtain ⟨rfl, rfl⟩ := h
              subst hc
              refine ⟨d0, ds, rest2, k, (digitSpan_eq hspan).2, ?_, hk, hdrop2⟩
              rw [(digitSpan_eq hspan).1, dropLit_some hdrop]
    · exact Option.noConfusion h

/-- A rule-5 match on the right of `AmpRel` implies one on the left:
flipping separators never creates a `p\d+/get-` match either. -/
theorem tryMatchP_isSome_transfer {s t : List Char} (hrel : AmpRel s t)
    (h : (tryMatchP t).isSome = true) : (tryMatchP s).isSome = true := by
  obtain ⟨v, hm⟩ := Option.isSome_iff_exists.mp h
  obtain ⟨g, rest⟩ := v
  obtain ⟨d0, ds, t2, k, hd, hts, hfk, hdk⟩ := tryMatchP_some_shape hm
  have hq : ∀ c ∈ 'p' :: ((d0 :: ds) ++ getLit), c ≠ '?' := by
    intro c hc
    rcases List.mem_cons.mp hc with rfl | hc'
    · decide
    · rcases List.mem_append.mp hc' with hc2 | hc2
      · refine isDigit_ne ?_ (by decide)
        simp only [List.all_eq_true] at hd
        exact hd c hc2
      · have hget : ∀ x ∈ getLit, x ≠ '?' := by decide
        exact hget c hc2
  have hts2 : t = ('p' :: ((d0 :: ds) ++ getLit)) ++ t2 := by
    rw [hts]
    simp [List.cons_append, List.append_assoc]
  rw [hts2] at hrel
  obtain ⟨s2, rfl, hrel2⟩ := hrel.of_append hq
  have hspan : digitSpan ((d0 :: ds) ++ (getLit ++ s2)) = (d0 :: ds, getLit ++ s2) := by
    refine digitSpan_append hd ?_
    intro c cs hcs
    rw [show getLit ++ s2 = '/' :: ("get-".toList ++ s2) from rfl] at hcs
    have : c = '/' := by injection hcs with h1 _; exact h1.symm
    subst this
    rfl
  have hdropg : dropLit getLit (getLit ++ s2) = some s2 := dropLit_self _ _
  have hcondt : condP t2 k = true := findKAux_cond hfk
  have hkb := findKAux_le hfk
  have hconds : condP s2 k = true := by
    simp only [condP, Bool.and_eq_true] at hcondt ⊢
    constructor
    · exact (hrel2.take k).all_ne_quote hcondt.1
    · obtain ⟨y, hy⟩ := dropLit_isSome_iff.mp hcondt.2
      have hrd : AmpRel (s2.drop k) (sdLit ++ y) := hy ▸ hrel2.drop k
      obtain ⟨s', hs', -⟩ := hrd.of_append (by decide)
      exact dropLit_isSome_iff.mpr ⟨s', hs'⟩
  have hlen : s2.length = t2.length := hrel2.length_eq
  have hfs : (findKAux s2 s2.length).isSome = true :=
    findKAux_isSome hconds hkb.1 (by omega)
  obtain ⟨k', hk'⟩ := Option.isSome_iff_exists.mp hfs
  have hcond' : condP s2 k' = true := findKAux_cond hk'
  have hdk' : (dropLit sdLit (s2.drop k')).isSome = true := by
    simp only [condP, Bool.and_eq_true] at hcond'
    exact hcond'.2
  obtain ⟨r', hr'⟩ := Option.isSome_iff_exists.mp hdk'
  have hgoal : ('p' :: ((d0 :: ds) ++ getLit)) ++ s2
      = 'p' :: ((d0 :: ds) ++ (getLit ++ s2)) := by
    simp [List.cons_append, List.append_assoc]
  rw [hgoal]
  have hfk2 : findK s2 = some k' := hk'
  simp only [List.cons_append] at hspan
  simp [tryMatchP, hspan, hdropg, hfk2, hr']

/-- One pass of rule 5 on text with at most one occurrence of
`&start_date=` leaves no rule-5 match. -/
theorem noMatch_subst_P : ∀ (n : Nat) (s : List Char), s.length ≤ n →
    countSD s ≤ 1 → noMatch rule5 (subst rule5 s) = true := by
  intro n
  induction n with
  | zero =>
    intro s h _
    have : s = [] := List.length_eq_zero.mp (Nat.le_zero.mp h)
    subst this
    rfl
  | succ n ih =>
    intro s hlen hcnt
    cases hm : tryMatch rule5 s with
    | some v =>
      obtain ⟨g, rest⟩ := v
      rw [subst_match hm]
      have h1 := tryMatch_count hm rfl
      have hrest0 : countSD rest = 0 := by omega
      have hnm : noMatch rule5 rest = true := noMatch_P_of_countSD_zero hrest0
      rw [subst_eq_of_noMatch hnm]
      have hdec := tryMatch_some hm
      refine noMatch_P_of_countSD_zero ?_
      have ho : (g ++ '?' :: Rule.param rule5) ++ rest
          = g ++ '?' :: (paramS ++ rest) := by
        rw [show Rule.param rule5 = paramS from rfl]
        simp [List.append_assoc]
      have hs2 : s = g ++ '&' :: (paramS ++ rest) := by
        rw [hdec, show Rule.param rule5 = paramS from rfl]
        simp [List.append_assoc]
      have hflip := countSD_flip g rest
      rw [← ho] at hflip
      rw [← hs2] at hflip
      omega
    | none =>
      cases s with
      | nil => rfl
      | cons c cs =>
        rw [subst_cons_none hm]
        simp only [noMatch, Bool.and_eq_true, Option.isNone_iff_eq_none]
        have hccs : countSD cs ≤ 1 := le_trans (countSD_cons_le c cs) hcnt
        refine ⟨?_, ih cs (by simpa using Nat.le_of_succ_le_succ hlen) hccs⟩
        cases hm2 : tryMatch rule5 (c :: subst rule5 cs) with
        | none => rfl
        | some v =>
          have hsome : (tryMatchP (c :: subst rule5 cs)).isSome = true := by
            rw [show tryMatchP (c :: subst rule5 cs)
              = tryMatch rule5 (c :: subst rule5 cs) from rfl, hm2]
            rfl
          have := tryMatchP_isSome_transfer
            (.keep c (ampRel_subst rule5 cs)) hsome
          rw [show tryMatchP (c :: cs) = tryMatch rule5 (c :: cs) from rfl, hm]
            at this
          exact absurd this (by decide)

/-! ### The concrete rules satisfy the side conditions -/

theorem head_nondigit {x : List Char} (c0 : Char) (x' : List Char)
    (hx : x = c0 :: x') (h0 : c0.isDigit = false) :
    ∀ c cs, x = c :: cs → c.isDigit = false := by
  intro c cs h
  rw [hx] at h
  injection h with h1 _
  rw [← h1]
  exact h0

theorem pathB_head : ∀ c cs, pathB = c :: cs → c.isDigit = false :=
  head_nondigit '/' ("set-brightness".toList) rfl (by decide)

theorem pathH_head : ∀ c cs, pathH = c :: cs → c.isDigit = false :=
  head_nondigit '/' ("set-hue-saturation".toList) rfl (by decide)

theorem pathC_head : ∀ c cs, pathC = c :: cs → c.isDigit = false :=
  head_nondigit '/' ("set-color-temperature".toList) rfl (by decide)

theorem pathE_head : ∀ c cs, pathE = c :: cs → c.isDigit = false :=
  head_nondigit '/' ("set-lighting-effect".toList) rfl (by decide)

theorem noMatch_subst_rule1 (s : List Char) :
    noMatch rule1 (subst rule1 s) = true :=
  noMatch_subst_L pathB_head (by decide) (by decide) (by decide)
    s.length s le_rfl

theorem noMatch_subst_rule2 (s : List Char) :
    noMatch rule2 (subst rule2 s) = true :=
  noMatch_subst_L pathH_head (by decide) (by decide) (by decide)
    s.length s le_rfl

theorem noMatch_subst_rule3 (s : List Char) :
    noMatch rule3 (subst rule3 s) = true :=
  noMatch_subst_L pathC_head (by decide) (by decide) (by decide)
    s.length s le_rfl

theorem noMatch_subst_rule4 (s : List Char) :
    noMatch rule4 (subst rule4 s) = true :=
  noMatch_subst_L pathE_head (by decide) (by decide) (by decide)
    s.length s le_rfl

theorem transfer_rule1 {s t : List Char} (hrel : AmpRel s t)
    (h : noMatch rule1 s = true) : noMatch rule1 t = true :=
  noMatch_transfer_L pathB_head (by decide) (by decide) hrel h

theorem transfer_rule2 {s t : List Char} (hrel : AmpRel s t)
    (h : noMatch rule2 s = true) : noMatch rule2 t = true :=
  noMatch_transfer_L pathH_head (by decide) (by decide) hrel h

theorem transfer_rule3 {s t : List Char} (hrel : AmpRel s t)
    (h : noMatch rule3 s = true) : noMatch rule3 t = true :=
  noMatch_transfer_L pathC_head (by decide) (by decide) hrel h

theorem transfer_rule4 {s t : List Char} (hrel : AmpRel s t)
    (h : noMatch rule4 s = true) : noMatch rule4 t = true :=
  noMatch_transfer_L pathE_head (by decide) (by decide) hrel h

/-! ### Idempotence on inputs with at most one `&start_date=` -/

/-- On any text containing at most one occurrence of `&start_date=`, the
full five-rule transformation is idempotent: the first pass removes every
occurrence of every rule's pattern and creates none. -/
theorem fixUrls_idem {s : List Char} (h : countSD s ≤ 1) :
    fixUrls (fixUrls s) = fixUrls s := by
  have a1 : AmpRel s (subst rule1 s) := ampRel_subst rule1 s
  have a2 := ampRel_subst rule2 (subst rule1 s)
  have a3 := ampRel_subst rule3 (subst rule2 (subst rule1 s))
  have a4 := ampRel_subst rule4 (subst rule3 (subst rule2 (subst rule1 s)))
  have a5 := ampRel_subst rule5
    (subst rule4 (subst rule3 (subst rule2 (subst rule1 s))))
  have n1 : noMatch rule1 (fixUrls s) = true :=
    transfer_rule1 a5 (transfer_rule1 a4 (transfer_rule1 a3
      (transfer_rule1 a2 (noMatch_subst_rule1 s))))
  have n2 : noMatch rule2 (fixUrls s) = true :=
    transfer_rule2 a5 (transfer_rule2 a4 (transfer_rule2 a3
      (noMatch_subst_rule2 (subst rule1 s))))
  have n3 : noMatch rule3 (fixUrls s) = true :=
    transfer_rule3 a5 (transfer_rule3 a4
      (noMatch_subst_rule3 (subst rule2 (subst rule1 s))))
  have n4 : noMatch rule4 (fixUrls s) = true :=
    transfer_rule4 a5
      (noMatch_subst_rule4 (subst rule3 (subst rule2 (subst rule1 s))))
  have hc4 : countSD (subst rule4 (subst rule3 (subst rule2 (subst rule1 s)))) ≤ 1 :=
    le_trans (countSD_le_of_ampRel a4) (le_trans (countSD_le_of_ampRel a3)
      (le_trans (countSD_le_of_ampRel a2) (le_trans (countSD_le_of_ampRel a1) h)))
  have n5 : noMatch rule5 (fixUrls s) = true :=
    noMatch_subst_P _ _ le_rfl hc4
  show subst rule5 (subst rule4 (subst rule3 (subst rule2 (subst rule1 (fixUrls s)))))
    = fixUrls s
  rw [subst_eq_of_noMatch n1, subst_eq_of_noMatch n2, subst_eq_of_noMatch n3,
    subst_eq_of_noMatch n4, subst_eq_of_noMatch n5]

/-! ### Frame lemmas: regions the rules scan over without rewriting -/

theorem tryMatchL_none_of_drop {path param x : List Char} {d0 : Char}
    {d : List Char} (hd : (d0 :: d).all Char.isDigit = true)
    (hx : ∀ c cs, x = c :: cs → c.isDigit = false)
    (hdl : dropLit path x = none) :
    tryMatchL path param ('l' :: '9' :: ((d0 :: d) ++ x)) = none := by
  have hspan := digitSpan_append hd hx
  simp only [List.cons_append] at hspan
  simp [tryMatchL, hspan, hdl]

/-- Characterwise property of the block `l9<digits><x>`. -/
theorem region_ne {P : Char → Prop} {d0 : Char} {d x : List Char}
    (hl : P 'l') (h9 : P '9') (hdig : ∀ c, c.isDigit = true → P c)
    (hd : (d0 :: d).all Char.isDigit = true) (hx : ∀ c ∈ x, P c) :
    ∀ c ∈ 'l' :: '9' :: ((d0 :: d) ++ x), P c := by
  intro c hc
  rcases List.mem_cons.mp hc with rfl | hc2
  · exact hl
  rcases List.mem_cons.mp hc2 with rfl | hc3
  · exact h9
  rcases List.mem_append.mp hc3 with h' | h'
  · refine hdig c ?_
    simp only [List.all_eq_true] at hd
    exact hd c h'
  · exact hx c h'

/-- Characterwise property of the block `p<digits><x>`. -/
theorem region_ne_P {P : Char → Prop} {d0 : Char} {d x : List Char}
    (hp : P 'p') (hdig : ∀ c, c.isDigit = true → P c)
    (hd : (d0 :: d).all Char.isDigit = true) (hx : ∀ c ∈ x, P c) :
    ∀ c ∈ 'p' :: ((d0 :: d) ++ x), P c := by
  intro c hc
  rcases List.mem_cons.mp hc with rfl | hc2
  · exact hp
  rcases List.mem_append.mp hc2 with h' | h'
  · refine hdig c ?_
    simp only [List.all_eq_true] at hd
    exact hd c h'
  · exact hx c h'

theorem isDigit_ne_of {c : Char} (d : Char) (hd : d.isDigit = false)
    (h : c.isDigit = true) : c ≠ d := isDigit_ne h hd

/-- A rewritten (or otherwise inert) `l9` region between two blocks
without the rule's start character is not touched by an `l9` rule, given
that the rule fails at the region's head and the region's tail is
`safeL`. -/
theorem subst_id_region_L {path2 param2 x : List Char} {d0 : Char}
    {d u v : List Char} (hd : (d0 :: d).all Char.isDigit = true)
    (hu : ∀ c ∈ u, c ≠ 'l') (hv : ∀ c ∈ v, c ≠ 'l')
    (hxv : ∀ c cs, x ++ v = c :: cs → c.isDigit = false)
    (hdl : dropLit path2 (x ++ v) = none)
    (hsafe : safeL x = true) :
    subst (.L path2 param2) (u ++ ('l' :: '9' :: ((d0 :: d) ++ x)) ++ v)
      = u ++ ('l' :: '9' :: ((d0 :: d) ++ x)) ++ v := by
  rw [List.append_assoc]
  rw [subst_append_of_ne_sc (by intro c hc; simpa [Rule.sc] using hu c hc)]
  have hseg : ∀ mid, mid <:+ 'l' :: ('9' :: ((d0 :: d) ++ x)) → mid ≠ [] →
      tryMatch (.L path2 param2) (mid ++ v) = none := by
    intro mid hmid hne
    rcases List.suffix_cons_iff.mp hmid with rfl | hmid'
    · have he : ('l' :: ('9' :: ((d0 :: d) ++ x))) ++ v
          = 'l' :: '9' :: ((d0 :: d) ++ (x ++ v)) := by
        simp [List.cons_append, List.append_assoc]
      rw [he]
      simpa [tryMatch] using
        @tryMatchL_none_of_drop path2 param2 (x ++ v) d0 d hd hxv hdl
    · refine seg_of_safeL ?_ mid hmid' hne
      have he : '9' :: ((d0 :: d) ++ x) = ('9' :: (d0 :: d)) ++ x := by
        simp [List.cons_append]
      rw [he]
      refine safeL_append ?_ hsafe
      intro c hc
      rcases List.mem_cons.mp hc with rfl | hc'
      · decide
      · refine isDigit_ne ?_ (by decide)
        simp only [List.all_eq_true] at hd
        exact hd c hc'
  have he2 : 'l' :: '9' :: ((d0 :: d) ++ x) = 'l' :: ('9' :: ((d0 :: d) ++ x)) := rfl
  rw [he2, subst_append_of_seg hseg,
    subst_eq_self_of_ne_sc (by intro c hc; simpa [Rule.sc] using hv c hc),
    ← List.append_assoc]

/-- A block that is `safeL` as a whole (every `l` in it is followed by a
non-`9`) is not touched by an `l9` rule, between start-character-free
context blocks. -/
theorem subst_id_safeL {path param : List Char} {u a v : List Char}
    (hu : ∀ c ∈ u, c ≠ 'l') (hv : ∀ c ∈ v, c ≠ 'l')
    (hsafe : safeL a = true) :
    subst (.L path param) (u ++ a ++ v) = u ++ a ++ v := by
  rw [List.append_assoc]
  rw [subst_append_of_ne_sc (by intro c hc; simpa [Rule.sc] using hu c hc)]
  rw [subst_append_of_seg (fun mid hmid hne => seg_of_safeL hsafe mid hmid hne),
    subst_eq_self_of_ne_sc (by intro c hc; simpa [Rule.sc] using hv c hc),
    ← List.append_assoc]

/-! ### Rewriting lemmas: what a matched occurrence becomes -/

/-- An `l9` match at the head of the buffer is rewritten (its `&` becomes
`?`) and the scan continues after it. -/
theorem subst_head_L {path param t : List Char} {d0 : Char} {d : List Char}
    (hpath : ∀ c cs, path = c :: cs → c.isDigit = false)
    (hd : (d0 :: d).all Char.isDigit = true) :
    subst (.L path param) (('l' :: '9' :: ((d0 :: d) ++ (path ++ '&' :: param))) ++ t)
      = ('l' :: '9' :: ((d0 :: d) ++ (path ++ '?' :: param)))
        ++ subst (.L path param) t := by
  have hm : ('l' :: '9' :: ((d0 :: d) ++ (path ++ '&' :: param))) ++ t
      = 'l' :: '9' :: ((d0 :: d) ++ path ++ '&' :: param ++ t) := by
    simp [List.cons_append, List.append_assoc]
  have hmatch : tryMatch (.L path param)
      ('l' :: '9' :: ((d0 :: d) ++ path ++ '&' :: param ++ t))
      = some ('l' :: '9' :: ((d0 :: d) ++ path), t) := by
    simpa [tryMatch] using tryMatchL_exact (t := t) hd hpath
  rw [hm, subst_match hmatch]
  simp [Rule.param, List.cons_append, List.append_assoc]

/-- A rule-5 match at the head of the buffer is rewritten, provided the
text after `&start_date=` is empty or starts with a quote (so the greedy
`[^"]+` locks onto exactly this occurrence). -/
theorem subst_head_P {t : List Char} {d0 : Char} {d b : List Char}
    (hd : (d0 :: d).all Char.isDigit = true) (hb : b ≠ [])
    (hbq : b.all (fun c => c ≠ '"') = true)
    (ht : t = [] ∨ ∃ t', t = '"' :: t') :
    subst rule5 (('p' :: ((d0 :: d) ++ (getLit ++ (b ++ '&' :: paramS)))) ++ t)
      = ('p' :: ((d0 :: d) ++ (getLit ++ (b ++ '?' :: paramS))))
        ++ subst rule5 t := by
  have hm : ('p' :: ((d0 :: d) ++ (getLit ++ (b ++ '&' :: paramS)))) ++ t
      = 'p' :: ((d0 :: d) ++ getLit ++ b ++ '&' :: paramS ++ t) := by
    simp [List.cons_append, List.append_assoc]
  have hmatch : tryMatch rule5
      ('p' :: ((d0 :: d) ++ getLit ++ b ++ '&' :: paramS ++ t))
      = some ('p' :: ((d0 :: d) ++ getLit ++ b), t) := by
    simpa [tryMatch] using tryMatchP_exact (t := t) hd hb hbq ht
  rw [hm, subst_match hmatch]
  simp [Rule.param, rule5, List.cons_append, List.append_assoc]

/-! ### Positional analysis: where a pass can flip a separator -/

/-- Index into the left block of an append. -/
theorem getElem_append_lt {a b : List Char} {n : Nat} (h : n < a.length) :
    (a ++ b)[n]? = a[n]? := by
  rw [List.getElem?_append]
  simp [h]

/-- Index into the right block of an append. -/
theorem getElem_append_add {a b : List Char} (t : Nat) :
    (a ++ b)[a.length + t]? = b[t]? := by
  rw [List.getElem?_append_right (Nat.le_add_right _ _)]
  congr 1
  omega

/-- Index past the two leading characters of a double cons. -/
theorem getElem_cons_two {c1 c2 : Char} {z : List Char} (n : Nat) :
    (c1 :: c2 :: z)[n + 2]? = z[n]? := by
  simp [List.getElem?_cons_succ]

/-- A character other than `&` is kept at its position by an `AmpRel`
step. -/
theorem AmpRel.getElem_of_ne_amp {s t : List Char} (h : AmpRel s t) {j : Nat}
    {c : Char} (hc : s[j]? = some c) (hne : c ≠ '&') : t[j]? = some c := by
  rcases h.getElem_eq j with h' | h'
  · rw [h', hc]
  · rw [hc] at h'
    obtain ⟨h1, -⟩ := h'
    injection h1 with h1
    exact absurd h1 hne

/-- A character read off an all-digit run is a digit. -/
theorem all_digit_getElem {xs : List Char} (h : xs.all Char.isDigit = true)
    {t : Nat} {c : Char} (hc : xs[t]? = some c) : c.isDigit = true := by
  simp only [List.all_eq_true] at h
  exact h c (List.getElem?_mem hc)

/-- Positional reading of `safeL`: inside a `safeL` block every `l` is
followed by a character other than `9`. -/
theorem safeL_at {xs : List Char} (h : safeL xs = true) :
    ∀ i, xs[i]? = some 'l' → ∃ c, xs[i + 1]? = some c ∧ c ≠ '9' := by
  induction xs with
  | nil => intro i hi; simp at hi
  | cons c cs ih =>
    intro i hi
    simp only [safeL, Bool.and_eq_true] at h
    cases i with
    | zero =>
      simp only [List.getElem?_cons_zero, Option.some.injEq] at hi
      subst hi
      rw [if_pos rfl] at h
      cases cs with
      | nil => exact absurd h.1 (by simp)
      | cons c2 cs' =>
        refine ⟨c2, by simp, ?_⟩
        simpa using h.1
    | succ i =>
      have hi' : cs[i]? = some 'l' := by simpa using hi
      obtain ⟨c2, h1, h2⟩ := ih h.2 i hi'
      exact ⟨c2, by simpa using h1, h2⟩

/-- Inversion of a separator flip: a single-rule pass turns an `&` into a
`?` at a position only where an actual match of the rule has its
separator character. -/
theorem subst_flip_inv_aux {r : Rule} : ∀ (n : Nat) (s : List Char),
    s.length ≤ n → ∀ j : Nat, s[j]? = some '&' →
    (subst r s)[j]? = some '?' →
    ∃ a g rest, s = a ++ (g ++ '&' :: r.param ++ rest)
      ∧ a.length + g.length = j
      ∧ tryMatch r (g ++ '&' :: r.param ++ rest) = some (g, rest) := by
  intro n
  induction n with
  | zero =>
    intro s hn j hj _
    have hs : s = [] := List.length_eq_zero.mp (Nat.le_zero.mp hn)
    subst hs
    simp at hj
  | succ n ih =>
    intro s hn j hj hout
    cases hm : tryMatch r s with
    | some v =>
      obtain ⟨g0, rest0⟩ := v
      have hdec := tryMatch_some hm
      have hsub := subst_match hm
      rcases Nat.lt_trichotomy j g0.length with hlt | heq | hgt
      · have h1 : s[j]? = g0[j]? := by
          rw [hdec, getElem_append_lt (by simp; omega), getElem_append_lt hlt]
        have h2 : (subst r s)[j]? = g0[j]? := by
          rw [hsub, getElem_append_lt (by simp; omega), getElem_append_lt hlt]
        rw [h1] at hj
        rw [h2] at hout
        rw [hj] at hout
        exact absurd (Option.some.inj hout) (by decide)
      · exact ⟨[], g0, rest0, by simpa using hdec, by simpa using heq.symm,
          by rw [← hdec]; exact hm⟩
      · rcases Nat.lt_or_ge j (g0.length + 1 + r.param.length) with hin | hge
        · have h1 : s[j]? = ('&' :: r.param)[j - g0.length]? := by
            rw [hdec, getElem_append_lt (by simp; omega),
              List.getElem?_append_right (by omega)]
          have h2 : (subst r s)[j]? = ('?' :: r.param)[j - g0.length]? := by
            rw [hsub, getElem_append_lt (by simp; omega),
              List.getElem?_append_right (by omega)]
          obtain ⟨t, ht⟩ : ∃ t, j - g0.length = t + 1 := ⟨j - g0.length - 1, by omega⟩
          rw [ht] at h1 h2
          simp only [List.getElem?_cons_succ] at h1 h2
          rw [h1] at hj
          rw [h2] at hout
          rw [hj] at hout
          exact absurd (Option.some.inj hout) (by decide)
        · have hrl := tryMatch_rest_lt hm
          have hj' : rest0[j - (g0.length + 1 + r.param.length)]? = some '&' := by
            rw [hdec] at hj
            rw [show j = (g0 ++ '&' :: r.param).length
                + (j - (g0.length + 1 + r.param.length)) by simp; omega,
              getElem_append_add] at hj
            exact hj
          have hout' : (subst r rest0)[j - (g0.length + 1 + r.param.length)]?
              = some '?' := by
            rw [hsub] at hout
            rw [show j = (g0 ++ '?' :: r.param).length
                + (j - (g0.length + 1 + r.param.length)) by simp; omega,
              getElem_append_add] at hout
            exact hout
          obtain ⟨a', g, rest, hdec', hlen', htm⟩ :=
            ih rest0 (by omega) _ hj' hout'
          refine ⟨(g0 ++ '&' :: r.param) ++ a', g, rest, ?_, by simp; omega, htm⟩
          rw [hdec, hdec']
          simp [List.append_assoc]
    | none =>
      cases s with
      | nil => simp at hj
      | cons c cs =>
        have hsub := subst_cons_none hm
        cases j with
        | zero =>
          simp only [List.getElem?_cons_zero, Option.some.injEq] at hj
          rw [hsub] at hout
          simp only [List.getElem?_cons_zero, Option.some.injEq] at hout
          rw [hj] at hout
          exact absurd hout (by decide)
        | succ k =>
          have hj' : cs[k]? = some '&' := by simpa using hj
          have hout' : (subst r cs)[k]? = some '?' := by
            rw [hsub] at hout
            simpa using hout
          obtain ⟨a', g, rest, hdec', hlen', htm⟩ :=
            ih cs (by simpa using Nat.le_of_succ_le_succ hn) k hj' hout'
          exact ⟨c :: a', g, rest, by rw [hdec', List.cons_append],
            by simp; omega, htm⟩

/-- `subst_flip_inv_aux` without the fuel argument. -/
theorem subst_flip_inv {r : Rule} {s : List Char} {j : Nat}
    (hj : s[j]? = some '&') (hout : (subst r s)[j]? = some '?') :
    ∃ a g rest, s = a ++ (g ++ '&' :: r.param ++ rest)
      ∧ a.length + g.length = j
      ∧ tryMatch r (g ++ '&' :: r.param ++ rest) = some (g, rest) :=
  subst_flip_inv_aux s.length s le_rfl j hj hout

/-- The character at the separator offset of an `l9` block
`l9<digits><path><c><param>`. -/
theorem getElem_sep_L {path param : List Char} {d0 : Char} {d : List Char}
    (c : Char) :
    ('l' :: '9' :: ((d0 :: d) ++ (path ++ c :: param)))[
      (d0 :: d).length + path.length + 2]? = some c := by
  rw [getElem_cons_two, getElem_append_add,
    List.getElem?_append_right le_rfl]
  simp

/-- The character `t` places into the parameter of an `l9` block. -/
theorem getElem_param_L {path param : List Char} {d0 : Char} {d : List Char}
    (c : Char) (t : Nat) :
    ('l' :: '9' :: ((d0 :: d) ++ (path ++ c :: param)))[
      ((d0 :: d).length + path.length + 2) + (t + 1)]? = param[t]? := by
  rw [show ((d0 :: d).length + path.length + 2) + (t + 1)
      = ((d0 :: d).length + (path.length + (t + 1))) + 2 by omega,
    getElem_cons_two, getElem_append_add, getElem_append_add]
  simp

/-- Every occurrence of an `l9` pattern, in arbitrary context, has its
separator flipped by the rule's pass: matches of the rigid `l9` rules
cannot overlap an occurrence (inside a match text no `l` is followed by a
`9`), so the left-to-right scan always reaches and rewrites it. -/
theorem subst_flip_L {path param : List Char} {d0 : Char} {d : List Char}
    (hpath : ∀ c cs, path = c :: cs → c.isDigit = false)
    (hsafe : safeL (path ++ '&' :: param) = true)
    (hd : (d0 :: d).all Char.isDigit = true) :
    ∀ (n : Nat) (u : List Char), u.length ≤ n → ∀ v : List Char,
      (subst (.L path param)
          (u ++ ('l' :: '9' :: ((d0 :: d) ++ (path ++ '&' :: param))) ++ v))[
        u.length + ((d0 :: d).length + path.length + 2)]? = some '?' := by
  have hhead : ∀ v : List Char,
      (subst (.L path param)
          (('l' :: '9' :: ((d0 :: d) ++ (path ++ '&' :: param))) ++ v))[
        (d0 :: d).length + path.length + 2]? = some '?' := by
    intro v
    rw [subst_head_L hpath hd, getElem_append_lt (by simp; omega)]
    exact getElem_sep_L '?'
  intro n
  induction n with
  | zero =>
    intro u hn v
    have hu : u = [] := List.length_eq_zero.mp (Nat.le_zero.mp hn)
    subst hu
    simpa using hhead v
  | succ n ih =>
    intro u hn v
    cases u with
    | nil => simpa using hhead v
    | cons c u' =>
      rw [show ((c :: u') ++ ('l' :: '9' :: ((d0 :: d) ++ (path ++ '&' :: param)))) ++ v
          = c :: ((u' ++ ('l' :: '9' :: ((d0 :: d) ++ (path ++ '&' :: param)))) ++ v) from by
        simp [List.cons_append, List.append_assoc]]
      cases hm : tryMatch (.L path param)
          (c :: ((u' ++ ('l' :: '9' :: ((d0 :: d) ++ (path ++ '&' :: param)))) ++ v)) with
      | none =>
        rw [subst_cons_none hm,
          show (c :: u').length + ((d0 :: d).length + path.length + 2)
            = (u'.length + ((d0 :: d).length + path.length + 2)) + 1 by
              simp only [List.length_cons]; omega,
          List.getElem?_cons_succ]
        exact ih u' (by simpa using Nat.le_of_succ_le_succ hn) v
      | some v0 =>
        obtain ⟨g0, rest0⟩ := v0
        have hdec := tryMatch_some hm
        simp only [Rule.param] at hdec
        have hsub := subst_match hm
        simp only [Rule.param] at hsub
        obtain ⟨e0, dd, hdd, hg0⟩ := tryMatchL_some_shape
          (by simpa [tryMatch] using hm)
        have heqS : c :: ((u' ++ ('l' :: '9' :: ((d0 :: d) ++ (path ++ '&' :: param)))) ++ v)
            = (c :: u')
              ++ (('l' :: '9' :: ((d0 :: d) ++ (path ++ '&' :: param))) ++ v) := by
          simp [List.cons_append, List.append_assoc]
        have hmtlen : (g0 ++ '&' :: param).length = g0.length + 1 + param.length := by
          simp only [List.length_append, List.length_cons]
          omega
        rcases le_or_lt (g0.length + 1 + param.length) (c :: u').length with
          hTle | hTgt
        · -- the match lies inside the context `u`: recurse after it
          have heq2 : (g0 ++ '&' :: param) ++ rest0
              = (c :: u')
                ++ (('l' :: '9' :: ((d0 :: d) ++ (path ++ '&' :: param))) ++ v) :=
            hdec.symm.trans heqS
          have hsplit : ∃ u'', c :: u' = (g0 ++ '&' :: param) ++ u''
              ∧ rest0 = u''
                ++ (('l' :: '9' :: ((d0 :: d) ++ (path ++ '&' :: param))) ++ v) := by
            rcases List.append_eq_append_iff.mp heq2 with
              ⟨u'', hu'', hrest⟩ | ⟨c', hmt, hMv⟩
            · exact ⟨u'', hu'', hrest⟩
            · have hc0 : c'.length = 0 := by
                have hle := congrArg List.length hmt
                simp only [List.length_append, List.length_cons] at hle
                simp only [List.length_cons] at hTle
                omega
              have hc' : c' = [] := List.length_eq_zero.mp hc0
              subst hc'
              exact ⟨[], by simpa using hmt.symm, by simpa using hMv.symm⟩
          obtain ⟨u'', hu'', hrest⟩ := hsplit
          have hlenc : u'.length + 1 = g0.length + 1 + param.length + u''.length := by
            have hle := congrArg List.length hu''
            simp only [List.length_cons, List.length_append] at hle
            omega
          have hn' : u'.length + 1 ≤ n + 1 := by simpa using hn
          rw [hsub,
            show (c :: u').length + ((d0 :: d).length + path.length + 2)
              = (g0 ++ '?' :: param).length
                + (u''.length + ((d0 :: d).length + path.length + 2)) by
                simp only [List.length_cons, List.length_append]; omega,
            getElem_append_add,
            show rest0 = (u'' ++ ('l' :: '9' :: ((d0 :: d) ++ (path ++ '&' :: param)))) ++ v from
              hrest.trans (List.append_assoc _ _ _).symm]
          exact ih u'' (by omega) v
        · -- the match would have to overlap the occurrence: impossible
          exfalso
          simp only [List.length_cons] at hTgt
          have hpre : (c :: u')
              ++ (('l' :: '9' :: ((d0 :: d) ++ (path ++ '&' :: param))) ++ v)
              = (g0 ++ '&' :: param) ++ rest0 := heqS.symm.trans hdec
          have hl9 : ((c :: u')
              ++ (('l' :: '9' :: ((d0 :: d) ++ (path ++ '&' :: param))) ++ v))[
                (c :: u').length + 0]? = some 'l' := by
            rw [getElem_append_add]
            simp
          have h9 : ((c :: u')
              ++ (('l' :: '9' :: ((d0 :: d) ++ (path ++ '&' :: param))) ++ v))[
                (c :: u').length + 1]? = some '9' := by
            rw [getElem_append_add]
            simp
          rw [hpre] at hl9 h9
          rw [show (c :: u').length + 0 = u'.length + 1 by simp] at hl9
          rw [show (c :: u').length + 1 = u'.length + 1 + 1 by simp] at h9
          rw [getElem_append_lt (by rw [hmtlen]; omega)] at hl9
          have hmt2 : g0 ++ '&' :: param
              = 'l' :: ('9' :: ((e0 :: dd) ++ (path ++ '&' :: param))) := by
            rw [hg0]
            simp [List.cons_append, List.append_assoc]
          have htailsafe : safeL ('9' :: ((e0 :: dd) ++ (path ++ '&' :: param)))
              = true := by
            have hsh : '9' :: ((e0 :: dd) ++ (path ++ '&' :: param))
                = ('9' :: (e0 :: dd)) ++ (path ++ '&' :: param) := by
              simp [List.cons_append]
            rw [hsh]
            refine safeL_append ?_ hsafe
            intro x hx
            rcases List.mem_cons.mp hx with rfl | hx'
            · decide
            · refine isDigit_ne ?_ (by decide)
              simp only [List.all_eq_true] at hdd
              exact hdd x hx'
          rw [hmt2] at hl9
          rw [List.getElem?_cons_succ] at hl9
          obtain ⟨c2, hc2, hne9⟩ := safeL_at htailsafe u'.length hl9
          have hbound := (List.getElem?_eq_some.mp hc2).1
          simp only [List.length_cons] at hbound
          rw [getElem_append_lt (by
            rw [hmt2]
            simp only [List.length_cons]
            omega)] at h9
          rw [hmt2] at h9
          rw [List.getElem?_cons_succ] at h9
          rw [hc2] at h9
          exact absurd (Option.some.inj h9) hne9

/-- No flip can happen at a position after which the text disagrees with
the rule's parameter: every flip carries the parameter literal right
after the separator. -/
theorem noflip_of_param_mismatch {r : Rule} {Y : List Char} {j : Nat}
    (t : Nat) (pc yc : Char)
    (hpt : r.param[t]? = some pc)
    (hyt : Y[j + 1 + t]? = some yc) (hne : pc ≠ yc)
    (hj : Y[j]? = some '&') (hout : (subst r Y)[j]? = some '?') : False := by
  obtain ⟨a, g, rest, hdec, hlen, -⟩ := subst_flip_inv hj hout
  have hsh : Y = (a ++ g) ++ ('&' :: (r.param ++ rest)) := by
    rw [hdec]
    simp [List.cons_append, List.append_assoc]
  have hint : t < r.param.length := (List.getElem?_eq_some.mp hpt).1
  have h1 : Y[j + 1 + t]? = r.param[t]? := by
    rw [hsh,
      show j + 1 + t = (a ++ g).length + (t + 1) by
        simp only [List.length_append]; omega,
      getElem_append_add, List.getElem?_cons_succ,
      getElem_append_lt hint]
  rw [hyt, hpt] at h1
  exact hne (Option.some.inj h1).symm

/-- In `xs ++ '&' :: ys` with `&`-free `xs` and `ys`, the separator
position is the only `&`. -/
theorem getElem_amp_eq {xs ys : List Char} {k : Nat}
    (hxs : ∀ c ∈ xs, c ≠ '&') (hys : ∀ c ∈ ys, c ≠ '&')
    (hk : (xs ++ '&' :: ys)[k]? = some '&') : k = xs.length := by
  rcases lt_trichotomy k xs.length with h | h | h
  · rw [getElem_append_lt h] at hk
    exact absurd rfl (hxs _ (List.getElem?_mem hk))
  · exact h
  · exfalso
    obtain ⟨t, ht⟩ : ∃ t, k = xs.length + (t + 1) := ⟨k - xs.length - 1, by omega⟩
    rw [ht, getElem_append_add, List.getElem?_cons_succ] at hk
    exact absurd rfl (hys _ (List.getElem?_mem hk))

/-- In a well-formed `l9` block, the separator position is the only `&`. -/
theorem amp_unique_L {path param : List Char} {d0 : Char} {d : List Char}
    (hd : (d0 :: d).all Char.isDigit = true)
    (hpath : ∀ c ∈ path, c ≠ '&') (hparam : ∀ c ∈ param, c ≠ '&')
    {k : Nat}
    (hk : ('l' :: '9' :: ((d0 :: d) ++ (path ++ '&' :: param)))[k]? = some '&') :
    k = (d0 :: d).length + path.length + 2 := by
  have hsh : 'l' :: '9' :: ((d0 :: d) ++ (path ++ '&' :: param))
      = ('l' :: '9' :: ((d0 :: d) ++ path)) ++ '&' :: param := by
    simp [List.cons_append, List.append_assoc]
  rw [hsh] at hk
  have hxs : ∀ c ∈ 'l' :: '9' :: ((d0 :: d) ++ path), c ≠ '&' :=
    region_ne (by decide) (by decide)
      (fun c h => isDigit_ne h (by decide)) hd hpath
  have := getElem_amp_eq hxs hparam hk
  rw [this]
  simp only [List.length_cons, List.length_append]
  try omega

/-- Under the disjointness hypothesis, an `l9` pass cannot flip anything
inside a region headed by `p`: the flip's match would either start inside
the region (excluded by the hypothesis) or cover the region's leading
`p`, which no `l9` match text contains. -/
theorem noflip_L_in_region {path param pre reg w : List Char}
    (hreg : reg[0]? = some 'p')
    (hpathp : ∀ c ∈ path, c ≠ 'p') (hparamp : ∀ c ∈ param, c ≠ 'p')
    (hdisj : ∀ mid, mid <:+ reg → mid ≠ [] →
      tryMatch (.L path param) (mid ++ w) = none)
    {k : Nat} (hk : k < reg.length)
    (hj : (pre ++ reg ++ w)[pre.length + k]? = some '&')
    (hout : (subst (.L path param) (pre ++ reg ++ w))[pre.length + k]?
      = some '?') :
    False := by
  obtain ⟨a, g, rest, hdec, hlen, htm⟩ := subst_flip_inv hj hout
  simp only [Rule.param] at hdec htm
  obtain ⟨e0, dd, hdd, hg0⟩ := tryMatchL_some_shape
    (by simpa [tryMatch] using htm)
  rcases Nat.lt_or_ge a.length pre.length with hip | hip
  · -- the match text would cover the region's leading `p`
    have hp : (pre ++ reg ++ w)[pre.length + 0]? = some 'p' := by
      rw [List.append_assoc, getElem_append_add, getElem_append_lt (by omega)]
      exact hreg
    rw [hdec] at hp
    rw [show pre.length + 0 = a.length + (pre.length - a.length) by omega,
      getElem_append_add] at hp
    rw [getElem_append_lt (by
      simp only [List.length_append, List.length_cons]
      omega)] at hp
    have hmem : ('p' : Char) ∈ g ++ '&' :: param := List.getElem?_mem hp
    rcases List.mem_append.mp hmem with hmem' | hmem'
    · rw [hg0] at hmem'
      exact absurd rfl (region_ne (P := fun c => c ≠ 'p') (by decide) (by decide)
        (fun c h => isDigit_ne h (by decide)) hdd hpathp 'p' hmem')
    · rcases List.mem_cons.mp hmem' with h' | h'
      · exact absurd h' (by decide)
      · exact absurd rfl (hparamp 'p' h')
  · -- the match starts inside the region: excluded by disjointness
    have hmlt : a.length - pre.length < reg.length := by omega
    have hmid := hdisj (reg.drop (a.length - pre.length))
      (List.drop_suffix _ _)
      (by simp only [ne_eq, List.drop_eq_nil_iff]; omega)
    have hdrop1 : (pre ++ reg ++ w).drop a.length
        = reg.drop (a.length - pre.length) ++ w := by
      conv_lhs => rw [List.append_assoc,
        show a.length = pre.length + (a.length - pre.length) by omega]
      rw [List.drop_append, List.drop_append_of_le_length (by omega)]
    have hdrop2 : (pre ++ reg ++ w).drop a.length
        = (g ++ '&' :: param) ++ rest := by
      rw [hdec]
      exact List.drop_left _ _
    rw [hdrop1] at hdrop2
    rw [hdrop2] at hmid
    rw [htm] at hmid
    exact Option.noConfusion hmid

/-- In any context, no pass of rule 1 flips the separator of an
`l8123/set-brightness&level=50` fragment — also on intermediate texts, as
long as they only differ from the original at flipped separators: the
digit run before `/set-brightness` is `8123`, and working backwards from
the separator, no admissible digit-run length puts an `l9` in front of
it. -/
theorem noflip_rule1_l8 {u v Y : List Char}
    (hrel : AmpRel (u ++ "l8123/set-brightness&level=50".toList ++ v) Y)
    (hj : Y[u.length + 20]? = some '&')
    (hout : (subst rule1 Y)[u.length + 20]? = some '?') : False := by
  obtain ⟨a, g, rest, hdec, hlen, htm⟩ := subst_flip_inv hj hout
  have htmL : tryMatchL pathB paramB ((g ++ '&' :: paramB) ++ rest)
      = some (g, rest) := by simpa [tryMatch, rule1, Rule.param] using htm
  obtain ⟨e0, dd, hdd, hg0⟩ := tryMatchL_some_shape htmL
  simp only [rule1, Rule.param] at hdec
  have hglen : g.length = dd.length + 18 := by
    rw [hg0]
    simp only [List.length_cons, List.length_append]
    have hpb : pathB.length = 15 := by decide
    omega
  have hYg : ∀ t, t < g.length → Y[a.length + t]? = g[t]? := by
    intro t ht
    rw [hdec, getElem_append_add,
      getElem_append_lt (by
        simp only [List.length_append, List.length_cons]; omega),
      getElem_append_lt ht]
  have hbr : ∀ t c, ("l8123/set-brightness&level=50".toList)[t]? = some c →
      c ≠ '&' → Y[u.length + t]? = some c := by
    intro t c hc hcn
    refine hrel.getElem_of_ne_amp ?_ hcn
    rw [List.append_assoc, getElem_append_add,
      getElem_append_lt (List.getElem?_eq_some.mp hc).1]
    exact hc
  have hgl : g[0]? = some 'l' := by rw [hg0]; rfl
  have hg9 : g[1]? = some '9' := by rw [hg0]; rfl
  have hgd : ∀ t, t < dd.length + 1 →
      ∃ cd, g[t + 2]? = some cd ∧ cd.isDigit = true := by
    intro t ht
    rw [hg0, getElem_cons_two,
      getElem_append_lt (by simp only [List.length_cons]; omega)]
    obtain ⟨cd, hcd⟩ : ∃ cd, (e0 :: dd)[t]? = some cd :=
      ⟨_, List.getElem?_eq_getElem (by simp only [List.length_cons]; omega)⟩
    exact ⟨cd, hcd, all_digit_getElem hdd hcd⟩
  have hkey : a.length + dd.length + 18 = u.length + 20 := by omega
  have hdisj5 : dd.length = 0 ∨ dd.length = 1 ∨ dd.length = 2
      ∨ dd.length = 3 ∨ 4 ≤ dd.length := by omega
  rcases hdisj5 with h5 | h5 | h5 | h5 | h5
  · -- digit run `3`: the char before it would be `2`, not `9`
    have h1 : Y[a.length + 0]? = some 'l' := (hYg 0 (by omega)).trans hgl
    have h2 : Y[u.length + 2]? = some '1' := hbr 2 '1' (by decide) (by decide)
    rw [show u.length + 2 = a.length + 0 by omega] at h2
    rw [h1] at h2
    exact absurd (Option.some.inj h2) (by decide)
  · have h1 : Y[a.length + 0]? = some 'l' := (hYg 0 (by omega)).trans hgl
    have h2 : Y[u.length + 1]? = some '8' := hbr 1 '8' (by decide) (by decide)
    rw [show u.length + 1 = a.length + 0 by omega] at h2
    rw [h1] at h2
    exact absurd (Option.some.inj h2) (by decide)
  · have h1 : Y[a.length + 1]? = some '9' := (hYg 1 (by omega)).trans hg9
    have h2 : Y[u.length + 1]? = some '8' := hbr 1 '8' (by decide) (by decide)
    rw [show u.length + 1 = a.length + 1 by omega] at h2
    rw [h1] at h2
    exact absurd (Option.some.inj h2) (by decide)
  · have h1 : Y[a.length + 1]? = some '9' := (hYg 1 (by omega)).trans hg9
    have h2 : Y[u.length + 0]? = some 'l' := hbr 0 'l' (by decide) (by decide)
    rw [show u.length + 0 = a.length + 1 by omega] at h2
    rw [h1] at h2
    exact absurd (Option.some.inj h2) (by decide)
  · -- a long digit run would cover the fragment's leading `l`
    obtain ⟨cd, hcd, hcdd⟩ := hgd (u.length - a.length - 2) (by omega)
    have h1 : Y[a.length + (u.length - a.length - 2 + 2)]? = some cd :=
      (hYg _ (by omega)).trans hcd
    have h2 : Y[u.length + 0]? = some 'l' := hbr 0 'l' (by decide) (by decide)
    rw [show u.length + 0 = a.length + (u.length - a.length - 2 + 2) by omega] at h2
    rw [h1] at h2
    have hcl : cd = 'l' := Option.some.inj h2
    rw [hcl] at hcdd
    exact absurd hcdd (by decide)

/-! ### The end-to-end scenario of the spec -/

/-- The spec's end-to-end scenario file content. -/
def scenarioLine : List Char :=
  "\"http://host/l9001/set-brightness&level=80\" and \"http://host/p5/get-record&start_date=2024-01-01\"".toList

/-- The expected output for the scenario content. -/
def scenarioFixed : List Char :=
  "\"http://host/l9001/set-brightness?level=80\" and \"http://host/p5/get-record?start_date=2024-01-01\"".toList

/-- A filesystem in which both target files hold the scenario content and
are writable. -/
def scenarioFS : FS :=
  { contents := fun _ => some scenarioLine
    writable := fun _ => true }

/-! ## The claims -/

/-- C1 (counterexample): the five-rule transformation is NOT idempotent on
every input.  On `p1/get-a&start_date=x&start_date=` the greedy `[^"]+` of
rule 5 swallows the first `&start_date=` inside group 1, so the first pass
rewrites only the second occurrence; a second pass then rewrites the first
one as well, giving a different result. -/
theorem c1_counterexample :
    fixUrls (fixUrls ("p1/get-a&start_date=x&start_date=".toList))
      ≠ fixUrls ("p1/get-a&start_date=x&start_date=".toList) := by decide

/-- C1 (amended): applying the full five-rule set twice yields the same
result as applying it once for every input text containing at most one
occurrence of `&start_date=`; the first pass then removes every occurrence
of every rule's pattern and creates none. -/
theorem c1_idempotent_of_single_start_date (s : List Char)
    (h : countSD s ≤ 1) : fixUrls (fixUrls s) = fixUrls s :=
  fixUrls_idem h

/-- Witness for the amended C1 at a concrete input. -/
theorem c1_idempotent_of_single_start_date_witness :
    countSD ("x&start_date=1 and l9001/set-brightness&level=2".toList) ≤ 1
    ∧ fixUrls (fixUrls ("x&start_date=1 and l9001/set-brightness&level=2".toList))
      = fixUrls ("x&start_date=1 and l9001/set-brightness&level=2".toList) :=
  ⟨by decide, c1_idempotent_of_single_start_date _ (by decide)⟩

/-- C2: on the end-to-end scenario content the transformation produces the
two rewritten URLs, the run succeeds, both files are rewritten with the
fixed content, and the program prints `Fixed URL constructions`. -/
theorem c2_end_to_end :
    fixUrls scenarioLine = scenarioFixed
    ∧ (runProgram scenarioFS).2.2 = ["Fixed URL constructions".toList]
    ∧ (runProgram scenarioFS).2.1 = none
    ∧ (runProgram scenarioFS).1.contents file1 = some scenarioFixed
    ∧ (runProgram scenarioFS).1.contents file2 = some scenarioFixed := by
  decide

/-- C4: the per-file transformation is the sequential composition of the
five single-rule substitutions in the listed order (each rule scans the
previous rule's output, not an independent copy of the original). -/
theorem c4_chain_is_composition (s : List Char) : fixUrls s = specChain s := rfl

/-- C9: the five-rule transformation preserves the length of the text:
every replacement has exactly the length of the text it replaces. -/
theorem c9_length_preserved (s : List Char) :
    (fixUrls s).length = s.length :=
  ((ampRel_fixUrls s).length_eq).symm

/-- C10: the output differs from the input only at positions where an `&`
was replaced by `?`: same length (nothing inserted or deleted), and at
every index the characters agree unless the input has `&` and the output
`?` there. -/
theorem c10_only_amp_to_question (s : List Char) :
    (fixUrls s).length = s.length
    ∧ ∀ i : Nat, (fixUrls s)[i]? = s[i]?
        ∨ (s[i]? = some '&' ∧ (fixUrls s)[i]? = some '?') :=
  ⟨((ampRel_fixUrls s).length_eq).symm, (ampRel_fixUrls s).getElem_eq⟩

/-- C6: on a file whose text matches none of the five patterns the
transformation is the identity; the file is still processed and rewritten
(the write happens), but with byte-for-byte unchanged content. -/
theorem c6_no_match_no_op (fs : FS) (n s : List Char)
    (h1 : fs.contents n = some s) (h2 : fs.writable n = true)
    (m1 : noMatch rule1 s = true) (m2 : noMatch rule2 s = true)
    (m3 : noMatch rule3 s = true) (m4 : noMatch rule4 s = true)
    (m5 : noMatch rule5 s = true) :
    fixUrls s = s ∧ processFile fs n = .ok (writeFS fs n s) := by
  have hfix : fixUrls s = s := by
    show subst rule5 (subst rule4 (subst rule3 (subst rule2 (subst rule1 s)))) = s
    rw [subst_eq_of_noMatch m1, subst_eq_of_noMatch m2, subst_eq_of_noMatch m3,
      subst_eq_of_noMatch m4, subst_eq_of_noMatch m5]
  refine ⟨hfix, ?_⟩
  simp [processFile, h1, h2, hfix]

/-- A filesystem with pattern-free content in every file. -/
def plainFS : FS :=
  { contents := fun _ => some ("// no url construction here".toList)
    writable := fun _ => true }

/-- Witness for C6 at a concrete pattern-free file. -/
theorem c6_no_match_no_op_witness :
    plainFS.contents file1 = some ("// no url construction here".toList)
    ∧ noMatch rule1 ("// no url construction here".toList) = true
    ∧ fixUrls ("// no url construction here".toList)
        = "// no url construction here".toList
    ∧ processFile plainFS file1
        = .ok (writeFS plainFS file1 ("// no url construction here".toList)) := by
  have h := c6_no_match_no_op plainFS file1 ("// no url construction here".toList)
    rfl rfl (by decide) (by decide) (by decide) (by decide) (by decide)
  exact ⟨rfl, by decide, h.1, h.2⟩

/-- C8: if the first file is read and written successfully and the second
file then fails (unreadable or unwritable), the run aborts with the error,
prints nothing, and the first file keeps its rewritten content — there is
no rollback and no transactional guarantee across files. -/
theorem c8_failure_no_rollback (fs : FS) (t1 : List Char)
    (h1 : fs.contents file1 = some t1) (h2 : fs.writable file1 = true)
    (h3 : fs.contents file2 = none ∨ fs.writable file2 = false) :
    (∃ e, (runProgram fs).2.1 = some e)
    ∧ (runProgram fs).2.2 = []
    ∧ (runProgram fs).1.contents file1 = some (fixUrls t1) := by
  have hne : file2 ≠ file1 := by decide
  have hp1 : processFile fs file1 = .ok (writeFS fs file1 (fixUrls t1)) := by
    simp [processFile, h1, h2]
  have hc2 : (writeFS fs file1 (fixUrls t1)).contents file2 = fs.contents file2 := by
    simp [writeFS, hne]
  have hw2 : (writeFS fs file1 (fixUrls t1)).writable file2 = fs.writable file2 := rfl
  have e1 : runFiles fileList fs
      = runFiles [file2] (writeFS fs file1 (fixUrls t1)) := by
    rw [show fileList = file1 :: [file2] from rfl,
      show runFiles (file1 :: [file2]) fs
        = (match processFile fs file1 with
          | .ok fs' => runFiles [file2] fs'
          | .error e => (fs, some e)) from rfl, hp1]
  have hrun : ∃ e, runFiles fileList fs = (writeFS fs file1 (fixUrls t1), some e) := by
    have e3 : ∀ r, processFile (writeFS fs file1 (fixUrls t1)) file2 = .error r →
        runFiles fileList fs = (writeFS fs file1 (fixUrls t1), some r) := by
      intro r hr
      rw [e1, show runFiles [file2] (writeFS fs file1 (fixUrls t1))
        = (match processFile (writeFS fs file1 (fixUrls t1)) file2 with
          | .ok fs' => runFiles [] fs'
          | .error e => (writeFS fs file1 (fixUrls t1), some e)) from rfl, hr]
    rcases h3 with h3 | h3
    · refine ⟨.unreadable file2, e3 _ ?_⟩
      unfold processFile
      rw [hc2, h3]
    · cases hcont : fs.contents file2 with
      | none =>
        refine ⟨.unreadable file2, e3 _ ?_⟩
        unfold processFile
        rw [hc2, hcont]
      | some t2 =>
        refine ⟨.unwritable file2, e3 _ ?_⟩
        unfold processFile
        rw [hc2, hcont, hw2, h3]
        simp
  obtain ⟨e, he⟩ := hrun
  refine ⟨⟨e, ?_⟩, ?_, ?_⟩
  · simp [runProgram, he]
  · simp [runProgram, he]
  · simp [runProgram, he, writeFS]

/-- A filesystem in which only the first target file exists. -/
def failFS : FS :=
  { contents := fun n => if n = file1 then some ("a&start_date=b".toList) else none
    writable := fun _ => true }

/-- Witness for C8: the second file is unreadable; the first stays
rewritten. -/
theorem c8_failure_no_rollback_witness :
    failFS.contents file1 = some ("a&start_date=b".toList)
    ∧ (failFS.contents file2 = none ∨ failFS.writable file2 = false)
    ∧ ((∃ e, (runProgram failFS).2.1 = some e)
      ∧ (runProgram failFS).2.2 = []
      ∧ (runProgram failFS).1.contents file1
          = some (fixUrls ("a&start_date=b".toList))) := by
  refine ⟨by decide, Or.inl (by decide), ?_⟩
  exact c8_failure_no_rollback failFS ("a&start_date=b".toList)
    (by decide) rfl (Or.inl (by decide))

/-- C3: scope precision, for every input text.  (1) Any occurrence of
`l9<digits>/set-brightness&level=` — digit run starting with `9` followed
by at least one more digit, arbitrary surrounding context — is a
separator `&` in the input and is rewritten to `?` by the transformation.
(2) A substring `l8123/set-brightness&level=50`, whose digit run does not
start with `9`, is left unchanged by all five rules: every character of
the fragment, in arbitrary context, survives at its position. -/
theorem c3_scope_precision (e : Char) (d u v : List Char)
    (hd : (e :: d).all Char.isDigit = true) :
    ((u ++ ('l' :: '9' :: ((e :: d) ++ (pathB ++ '&' :: paramB))) ++ v)[
        u.length + ((e :: d).length + pathB.length + 2)]? = some '&'
      ∧ (fixUrls (u ++ ('l' :: '9' :: ((e :: d) ++ (pathB ++ '&' :: paramB))) ++ v))[
        u.length + ((e :: d).length + pathB.length + 2)]? = some '?')
    ∧ (∀ k, k < ("l8123/set-brightness&level=50".toList).length →
      (fixUrls (u ++ "l8123/set-brightness&level=50".toList ++ v))[u.length + k]?
        = ("l8123/set-brightness&level=50".toList)[k]?) := by
  constructor
  · constructor
    · rw [List.append_assoc, getElem_append_add,
        getElem_append_lt (by
          simp only [List.length_cons, List.length_append]; omega)]
      exact getElem_sep_L '&'
    · have h1 : (subst rule1
          (u ++ ('l' :: '9' :: ((e :: d) ++ (pathB ++ '&' :: paramB))) ++ v))[
            u.length + ((e :: d).length + pathB.length + 2)]? = some '?' := by
        have hsafe : safeL (pathB ++ '&' :: paramB) = true := by decide
        have h := subst_flip_L pathB_head hsafe hd u.length u le_rfl v
        simpa only [rule1] using h
      have h2 := (ampRel_subst rule2 _).getElem_of_ne_amp h1 (by decide)
      have h3 := (ampRel_subst rule3 _).getElem_of_ne_amp h2 (by decide)
      have h4 := (ampRel_subst rule4 _).getElem_of_ne_amp h3 (by decide)
      exact (ampRel_subst rule5 _).getElem_of_ne_amp h4 (by decide)
  · intro k hk
    have hk29 : k < 29 := by
      have h29 : ("l8123/set-brightness&level=50".toList).length = 29 := by decide
      omega
    have hbrX : ∀ t c, ("l8123/set-brightness&level=50".toList)[t]? = some c →
        (u ++ "l8123/set-brightness&level=50".toList ++ v)[u.length + t]?
          = some c := by
      intro t c hc
      rw [List.append_assoc, getElem_append_add,
        getElem_append_lt (List.getElem?_eq_some.mp hc).1]
      exact hc
    by_cases hk20 : k = 20
    · subst hk20
      have h0 : (u ++ "l8123/set-brightness&level=50".toList ++ v)[
          u.length + 20]? = some '&' := hbrX 20 '&' (by decide)
      have hr1 : AmpRel (u ++ "l8123/set-brightness&level=50".toList ++ v)
          (subst rule1 (u ++ "l8123/set-brightness&level=50".toList ++ v)) :=
        ampRel_subst rule1 _
      have hr2 := hr1.trans (ampRel_subst rule2 _)
      have hr3 := hr2.trans (ampRel_subst rule3 _)
      have hr4 := hr3.trans (ampRel_subst rule4 _)
      have hl21 : ∀ {Y}, AmpRel (u ++ "l8123/set-brightness&level=50".toList ++ v) Y →
          Y[u.length + 20 + 1 + 0]? = some 'l' := by
        intro Y hY
        rw [show u.length + 20 + 1 + 0 = u.length + 21 by omega]
        exact hY.getElem_of_ne_amp (hbrX 21 'l' (by decide)) (by decide)
      have he22 : ∀ {Y}, AmpRel (u ++ "l8123/set-brightness&level=50".toList ++ v) Y →
          Y[u.length + 20 + 1 + 1]? = some 'e' := by
        intro Y hY
        rw [show u.length + 20 + 1 + 1 = u.length + 22 by omega]
        exact hY.getElem_of_ne_amp (hbrX 22 'e' (by decide)) (by decide)
      have h1 : (subst rule1 (u ++ "l8123/set-brightness&level=50".toList ++ v))[
          u.length + 20]? = some '&' := by
        rcases (ampRel_subst rule1 _).getElem_eq (u.length + 20) with he | he
        · rw [he]; exact h0
        · exact (noflip_rule1_l8 (AmpRel.refl _) he.1 he.2).elim
      have h2 : (subst rule2 (subst rule1
          (u ++ "l8123/set-brightness&level=50".toList ++ v)))[
          u.length + 20]? = some '&' := by
        rcases (ampRel_subst rule2 _).getElem_eq (u.length + 20) with he | he
        · rw [he]; exact h1
        · exact (noflip_of_param_mismatch 0 'h' 'l' (by decide) (hl21 hr1)
            (by decide) he.1 he.2).elim
      have h3 : (subst rule3 (subst rule2 (subst rule1
          (u ++ "l8123/set-brightness&level=50".toList ++ v))))[
          u.length + 20]? = some '&' := by
        rcases (ampRel_subst rule3 _).getElem_eq (u.length + 20) with he | he
        · rw [he]; exact h2
        · exact (noflip_of_param_mismatch 0 'c' 'l' (by decide) (hl21 hr2)
            (by decide) he.1 he.2).elim
      have h4 : (subst rule4 (subst rule3 (subst rule2 (subst rule1
          (u ++ "l8123/set-brightness&level=50".toList ++ v)))))[
          u.length + 20]? = some '&' := by
        rcases (ampRel_subst rule4 _).getElem_eq (u.length + 20) with he | he
        · rw [he]; exact h3
        · exact (noflip_of_param_mismatch 1 'i' 'e' (by decide) (he22 hr3)
            (by decide) he.1 he.2).elim
      have h5 : (subst rule5 (subst rule4 (subst rule3 (subst rule2 (subst rule1
          (u ++ "l8123/set-brightness&level=50".toList ++ v))))))[
          u.length + 20]? = some '&' := by
        rcases (ampRel_subst rule5 _).getElem_eq (u.length + 20) with he | he
        · rw [he]; exact h4
        · exact (noflip_of_param_mismatch 0 's' 'l' (by decide) (hl21 hr4)
            (by decide) he.1 he.2).elim
      exact h5.trans (by decide)
    · have htab : ∀ t, t < 29 → t ≠ 20 →
          (("l8123/set-brightness&level=50".toList)[t]?.elim false
            (fun c => decide (c ≠ '&'))) = true := by decide
      obtain ⟨c, hc⟩ : ∃ c, ("l8123/set-brightness&level=50".toList)[k]? = some c :=
        ⟨_, List.getElem?_eq_getElem hk⟩
      have hcn : c ≠ '&' := by
        have h := htab k hk29 hk20
        rw [hc] at h
        simpa using h
      rw [(ampRel_fixUrls _).getElem_of_ne_amp (hbrX k c hc) hcn, hc]

/-- Witness for C3 at concrete digits and contexts. -/
theorem c3_scope_precision_witness :
    ("123".toList).all Char.isDigit = true
    ∧ (fixUrls (("x ".toList)
        ++ ('l' :: '9' :: (("123".toList) ++ (pathB ++ '&' :: paramB)))
        ++ (" y".toList)))[
      ("x ".toList).length + (("123".toList).length + pathB.length + 2)]?
        = some '?'
    ∧ (fixUrls (("x ".toList) ++ "l8123/set-brightness&level=50".toList
        ++ (" y".toList)))[("x ".toList).length + 20]?
        = ("l8123/set-brightness&level=50".toList)[20]? := by
  have h := c3_scope_precision '1' ("23".toList) ("x ".toList) (" y".toList)
    (by decide)
  exact ⟨by decide, h.1.2, h.2 20 (by decide)⟩

/-! ### Two disjoint matches -/

/-- An unrewritten `l9` match block: `l9<digits><path>&<param>`. -/
def mAmp (path param : List Char) (e : Char) (d : List Char) : List Char :=
  'l' :: '9' :: ((e :: d) ++ (path ++ '&' :: param))

/-- The rewritten form of `mAmp`: the separator flipped to `?`. -/
def mFix (path param : List Char) (e : Char) (d : List Char) : List Char :=
  'l' :: '9' :: ((e :: d) ++ (path ++ '?' :: param))

/-- An unrewritten rule-5 match block: `p<digits>/get-<body>&start_date=`. -/
def pAmp (e : Char) (d b : List Char) : List Char :=
  'p' :: ((e :: d) ++ (getLit ++ (b ++ '&' :: paramS)))

/-- The rewritten form of `pAmp`. -/
def pFix (e : Char) (d b : List Char) : List Char :=
  'p' :: ((e :: d) ++ (getLit ++ (b ++ '?' :: paramS)))

/-- Scanning steps over a single character that no match can start at. -/
theorem subst_cons_ne_sc {r : Rule} {c : Char} {t : List Char} (h : c ≠ r.sc) :
    subst r (c :: t) = c :: subst r t :=
  subst_cons_none (tryMatch_none_of_head h)

/-- `subst_head_L` with the text in right-nested normal form. -/
theorem subst_head_L_norm {path param t : List Char} {d0 : Char} {d : List Char}
    (hpath : ∀ c cs, path = c :: cs → c.isDigit = false)
    (hd : (d0 :: d).all Char.isDigit = true) :
    subst (.L path param) ('l' :: '9' :: d0 :: (d ++ (path ++ '&' :: (param ++ t))))
      = 'l' :: '9' :: d0 :: (d ++ (path ++ '?' :: (param ++ subst (.L path param) t))) := by
  have := @subst_head_L path param t d0 d hpath hd
  simpa [List.cons_append, List.append_assoc] using this

/-- `subst_head_P` with the text in right-nested normal form. -/
theorem subst_head_P_norm {t : List Char} {d0 : Char} {d b : List Char}
    (hd : (d0 :: d).all Char.isDigit = true) (hb : b ≠ [])
    (hbq : b.all (fun c => c ≠ '"') = true)
    (ht : t = [] ∨ ∃ t', t = '"' :: t') :
    subst rule5 ('p' :: d0 :: (d ++ (getLit ++ (b ++ '&' :: (paramS ++ t)))))
      = 'p' :: d0 :: (d ++ (getLit ++ (b ++ '?' :: (paramS ++ subst rule5 t)))) := by
  have := @subst_head_P t d0 d b hd hb hbq ht
  simpa [List.cons_append, List.append_assoc] using this

/-- Two disjoint `l9` matches in inert context are both rewritten and
nothing else changes. -/
theorem subst_two_L {path param : List Char} {e1 e2 : Char}
    {d1 d2 u v w : List Char}
    (hpath : ∀ c cs, path = c :: cs → c.isDigit = false)
    (hd1 : (e1 :: d1).all Char.isDigit = true)
    (hd2 : (e2 :: d2).all Char.isDigit = true)
    (hu : ∀ c ∈ u, c ≠ 'l') (hv : ∀ c ∈ v, c ≠ 'l') (hw : ∀ c ∈ w, c ≠ 'l') :
    subst (.L path param)
        (u ++ ('l' :: '9' :: ((e1 :: d1) ++ (path ++ '&' :: param))) ++ ('"' :: v)
          ++ ('l' :: '9' :: ((e2 :: d2) ++ (path ++ '&' :: param))) ++ ('"' :: w))
      = u ++ ('l' :: '9' :: ((e1 :: d1) ++ (path ++ '?' :: param))) ++ ('"' :: v)
          ++ ('l' :: '9' :: ((e2 :: d2) ++ (path ++ '?' :: param))) ++ ('"' :: w) := by
  have hql : ('"' : Char) ≠ 'l' := by decide
  simp only [List.cons_append, List.append_assoc]
  rw [subst_append_of_ne_sc (by intro c hc; simpa [Rule.sc] using hu c hc),
    subst_head_L_norm hpath hd1,
    subst_cons_ne_sc (r := .L path param) hql,
    subst_append_of_ne_sc (by intro c hc; simpa [Rule.sc] using hv c hc),
    subst_head_L_norm hpath hd2,
    subst_cons_ne_sc (r := .L path param) hql,
    subst_eq_self_of_ne_sc (by intro c hc; simpa [Rule.sc] using hw c hc)]

/-- Two disjoint rule-5 matches, each delimited by a following quote, are
both rewritten and nothing else changes. -/
theorem subst_two_P {e1 e2 : Char} {d1 d2 u v w b1 b2 : List Char}
    (hd1 : (e1 :: d1).all Char.isDigit = true)
    (hd2 : (e2 :: d2).all Char.isDigit = true)
    (hu : ∀ c ∈ u, c ≠ 'p') (hv : ∀ c ∈ v, c ≠ 'p') (hw : ∀ c ∈ w, c ≠ 'p')
    (hb1 : b1 ≠ []) (hb1q : b1.all (fun c => c ≠ '"') = true)
    (hb2 : b2 ≠ []) (hb2q : b2.all (fun c => c ≠ '"') = true) :
    subst rule5
        (u ++ ('p' :: ((e1 :: d1) ++ (getLit ++ (b1 ++ '&' :: paramS))))
          ++ ('"' :: v)
          ++ ('p' :: ((e2 :: d2) ++ (getLit ++ (b2 ++ '&' :: paramS))))
          ++ ('"' :: w))
      = u ++ ('p' :: ((e1 :: d1) ++ (getLit ++ (b1 ++ '?' :: paramS))))
          ++ ('"' :: v)
          ++ ('p' :: ((e2 :: d2) ++ (getLit ++ (b2 ++ '?' :: paramS))))
          ++ ('"' :: w) := by
  have hqp : ('"' : Char) ≠ 'p' := by decide
  simp only [List.cons_append, List.append_assoc]
  rw [subst_append_of_ne_sc (by intro c hc; simpa [Rule.sc, rule5] using hu c hc),
    subst_head_P_norm hd1 hb1 hb1q (Or.inr ⟨_, rfl⟩),
    subst_cons_ne_sc (r := rule5) hqp,
    subst_append_of_ne_sc (by intro c hc; simpa [Rule.sc, rule5] using hv c hc),
    subst_head_P_norm hd2 hb2 hb2q (Or.inr ⟨w, rfl⟩),
    subst_cons_ne_sc (r := rule5) hqp,
    subst_eq_self_of_ne_sc (by intro c hc; simpa [Rule.sc, rule5] using hw c hc)]

/-- C5: for every input text, each rule rewrites every non-overlapping
occurrence of its pattern, not just the first.  (i) After one pass of
each `l9` rule no occurrence of its pattern remains anywhere in the
buffer, for every input — so every occurrence was rewritten.  (ii) Each
of the five passes preserves every character exactly, except separators
`&` flipped to `?`.  (iii) In particular a text with two disjoint
`set-hue-saturation` matches, in arbitrary context, has the separators of
both rewritten. -/
theorem c5_multi_occurrence :
    ((∀ s, noMatch rule1 (subst rule1 s) = true)
      ∧ (∀ s, noMatch rule2 (subst rule2 s) = true)
      ∧ (∀ s, noMatch rule3 (subst rule3 s) = true)
      ∧ (∀ s, noMatch rule4 (subst rule4 s) = true))
    ∧ (∀ r, r ∈ [rule1, rule2, rule3, rule4, rule5] → ∀ (s : List Char) (i : Nat),
        (subst r s)[i]? = s[i]?
          ∨ (s[i]? = some '&' ∧ (subst r s)[i]? = some '?'))
    ∧ (∀ (e1 e2 : Char) (d1 d2 u v w : List Char),
        (e1 :: d1).all Char.isDigit = true →
        (e2 :: d2).all Char.isDigit = true →
        (((u ++ ('l' :: '9' :: ((e1 :: d1) ++ (pathH ++ '&' :: paramH))) ++ v
            ++ ('l' :: '9' :: ((e2 :: d2) ++ (pathH ++ '&' :: paramH))) ++ w)[
          u.length + ((e1 :: d1).length + pathH.length + 2)]? = some '&'
        ∧ (subst rule2 (u ++ ('l' :: '9' :: ((e1 :: d1) ++ (pathH ++ '&' :: paramH))) ++ v
            ++ ('l' :: '9' :: ((e2 :: d2) ++ (pathH ++ '&' :: paramH))) ++ w))[
          u.length + ((e1 :: d1).length + pathH.length + 2)]? = some '?')
        ∧ ((u ++ ('l' :: '9' :: ((e1 :: d1) ++ (pathH ++ '&' :: paramH))) ++ v
            ++ ('l' :: '9' :: ((e2 :: d2) ++ (pathH ++ '&' :: paramH))) ++ w)[
          (u ++ ('l' :: '9' :: ((e1 :: d1) ++ (pathH ++ '&' :: paramH))) ++ v).length
            + ((e2 :: d2).length + pathH.length + 2)]? = some '&'
        ∧ (subst rule2 (u ++ ('l' :: '9' :: ((e1 :: d1) ++ (pathH ++ '&' :: paramH))) ++ v
            ++ ('l' :: '9' :: ((e2 :: d2) ++ (pathH ++ '&' :: paramH))) ++ w))[
          (u ++ ('l' :: '9' :: ((e1 :: d1) ++ (pathH ++ '&' :: paramH))) ++ v).length
            + ((e2 :: d2).length + pathH.length + 2)]? = some '?'))) := by
  refine ⟨⟨noMatch_subst_rule1, noMatch_subst_rule2,
    noMatch_subst_rule3, noMatch_subst_rule4⟩, ?_, ?_⟩
  · intro r hr s i
    exact (ampRel_subst r s).getElem_eq i
  · intro e1 e2 d1 d2 u v w hd1 hd2
    have hsafe : safeL (pathH ++ '&' :: paramH) = true := by decide
    refine ⟨⟨?_, ?_⟩, ?_, ?_⟩
    · rw [show (((u ++ ('l' :: '9' :: ((e1 :: d1) ++ (pathH ++ '&' :: paramH)))) ++ v)
            ++ ('l' :: '9' :: ((e2 :: d2) ++ (pathH ++ '&' :: paramH)))) ++ w
          = u ++ (('l' :: '9' :: ((e1 :: d1) ++ (pathH ++ '&' :: paramH)))
            ++ (v ++ (('l' :: '9' :: ((e2 :: d2) ++ (pathH ++ '&' :: paramH)))
              ++ w))) from by simp [List.append_assoc],
        getElem_append_add,
        getElem_append_lt (by
          simp only [List.length_cons, List.length_append]; omega)]
      exact getElem_sep_L '&'
    · rw [show (((u ++ ('l' :: '9' :: ((e1 :: d1) ++ (pathH ++ '&' :: paramH)))) ++ v)
            ++ ('l' :: '9' :: ((e2 :: d2) ++ (pathH ++ '&' :: paramH)))) ++ w
          = (u ++ ('l' :: '9' :: ((e1 :: d1) ++ (pathH ++ '&' :: paramH))))
            ++ (v ++ (('l' :: '9' :: ((e2 :: d2) ++ (pathH ++ '&' :: paramH)))
              ++ w)) from by simp [List.append_assoc]]
      have h := subst_flip_L pathH_head hsafe hd1 u.length u le_rfl
        (v ++ (('l' :: '9' :: ((e2 :: d2) ++ (pathH ++ '&' :: paramH))) ++ w))
      simpa only [rule2] using h
    · rw [List.append_assoc, getElem_append_add,
        getElem_append_lt (by
          simp only [List.length_cons, List.length_append]; omega)]
      exact getElem_sep_L '&'
    · have h := subst_flip_L pathH_head hsafe hd2
        (u ++ ('l' :: '9' :: ((e1 :: d1) ++ (pathH ++ '&' :: paramH))) ++ v).length
        (u ++ ('l' :: '9' :: ((e1 :: d1) ++ (pathH ++ '&' :: paramH))) ++ v)
        le_rfl w
      simpa only [rule2] using h

/-- Witness for C5: the universal statements applied at concrete inputs —
a buffer with two `set-hue-saturation` matches has no occurrence left
after the pass, and both separators of a two-match text in arbitrary
context are flipped. -/
theorem c5_multi_occurrence_witness :
    noMatch rule2 (subst rule2
      ("x l9001/set-hue-saturation&hue=1 l97/set-hue-saturation&hue=2 y".toList))
      = true
    ∧ (subst rule2 (("x ".toList)
        ++ ('l' :: '9' :: (('0' :: "1".toList) ++ (pathH ++ '&' :: paramH)))
        ++ (" mid ".toList)
        ++ ('l' :: '9' :: (('7' :: "7".toList) ++ (pathH ++ '&' :: paramH)))
        ++ (" y".toList)))[
      ("x ".toList).length + (('0' :: "1".toList).length + pathH.length + 2)]?
        = some '?'
    ∧ (subst rule2 (("x ".toList)
        ++ ('l' :: '9' :: (('0' :: "1".toList) ++ (pathH ++ '&' :: paramH)))
        ++ (" mid ".toList)
        ++ ('l' :: '9' :: (('7' :: "7".toList) ++ (pathH ++ '&' :: paramH)))
        ++ (" y".toList)))[
      (("x ".toList)
        ++ ('l' :: '9' :: (('0' :: "1".toList) ++ (pathH ++ '&' :: paramH)))
        ++ (" mid ".toList)).length
        + (('7' :: "7".toList).length + pathH.length + 2)]? = some '?' := by
  have h := c5_multi_occurrence
  have h2 := h.2.2 '0' '7' ("1".toList) ("7".toList) ("x ".toList)
    (" mid ".toList) (" y".toList) (by decide) (by decide)
  exact ⟨h.1.2.1 _, h2.1.2, h2.2.2⟩

/-- C7: when a rule-1 match and a rule-5 match occupy disjoint regions —
no rule-1 match starts inside the rule-5 region — rule 1's pass leaves
every character of the rule-5 match region unchanged, and rule 5's pass
leaves every character of the rule-1 match region unchanged, in
arbitrary context. -/
theorem c7_non_interference (e1 e5 : Char) (d1 d5 u v w b : List Char)
    (hd1 : (e1 :: d1).all Char.isDigit = true)
    (hd5 : (e5 :: d5).all Char.isDigit = true)
    (hb : b ≠ []) (hbq : b.all (fun c => c ≠ '"') = true)
    (hdisj : ∀ mid, mid <:+ ('p' :: ((e5 :: d5) ++ (getLit ++ (b ++ '&' :: paramS)))) →
      mid ≠ [] → tryMatch rule1 (mid ++ w) = none) :
    (∀ k, k < ('p' :: ((e5 :: d5) ++ (getLit ++ (b ++ '&' :: paramS)))).length →
      (subst rule1 (u ++ ('l' :: '9' :: ((e1 :: d1) ++ (pathB ++ '&' :: paramB))) ++ v
          ++ ('p' :: ((e5 :: d5) ++ (getLit ++ (b ++ '&' :: paramS)))) ++ w))[
        (u ++ ('l' :: '9' :: ((e1 :: d1) ++ (pathB ++ '&' :: paramB))) ++ v).length + k]?
        = ('p' :: ((e5 :: d5) ++ (getLit ++ (b ++ '&' :: paramS))))[k]?)
    ∧ (∀ k, k < ('l' :: '9' :: ((e1 :: d1) ++ (pathB ++ '&' :: paramB))).length →
      (subst rule5 (u ++ ('l' :: '9' :: ((e1 :: d1) ++ (pathB ++ '&' :: paramB))) ++ v
          ++ ('p' :: ((e5 :: d5) ++ (getLit ++ (b ++ '&' :: paramS)))) ++ w))[
        u.length + k]?
        = ('l' :: '9' :: ((e1 :: d1) ++ (pathB ++ '&' :: paramB)))[k]?) := by
  constructor
  · intro k hk
    have hsk : (u ++ ('l' :: '9' :: ((e1 :: d1) ++ (pathB ++ '&' :: paramB))) ++ v
          ++ ('p' :: ((e5 :: d5) ++ (getLit ++ (b ++ '&' :: paramS)))) ++ w)[
        (u ++ ('l' :: '9' :: ((e1 :: d1) ++ (pathB ++ '&' :: paramB))) ++ v).length
          + k]?
        = ('p' :: ((e5 :: d5) ++ (getLit ++ (b ++ '&' :: paramS))))[k]? := by
      rw [List.append_assoc, getElem_append_add, getElem_append_lt hk]
    obtain ⟨c, hc⟩ : ∃ c,
        ('p' :: ((e5 :: d5) ++ (getLit ++ (b ++ '&' :: paramS))))[k]? = some c :=
      ⟨_, List.getElem?_eq_getElem hk⟩
    by_cases hcn : c = '&'
    · subst hcn
      rcases (ampRel_subst rule1 _).getElem_eq
          ((u ++ ('l' :: '9' :: ((e1 :: d1) ++ (pathB ++ '&' :: paramB))) ++ v).length
            + k) with he | he
      · rw [he, hsk, hc]
      · exfalso
        have hdisj' : ∀ mid,
            mid <:+ ('p' :: ((e5 :: d5) ++ (getLit ++ (b ++ '&' :: paramS)))) →
            mid ≠ [] → tryMatch (.L pathB paramB) (mid ++ w) = none := by
          simpa only [rule1] using hdisj
        exact noflip_L_in_region rfl (by decide) (by decide) hdisj' hk
          (hsk.trans hc) (by simpa only [rule1] using he.2)
    · rw [(ampRel_subst rule1 _).getElem_of_ne_amp (hsk.trans hc) hcn, hc]
  · intro k hk
    have hsh : (((u ++ ('l' :: '9' :: ((e1 :: d1) ++ (pathB ++ '&' :: paramB)))) ++ v)
          ++ ('p' :: ((e5 :: d5) ++ (getLit ++ (b ++ '&' :: paramS))))) ++ w
        = u ++ (('l' :: '9' :: ((e1 :: d1) ++ (pathB ++ '&' :: paramB)))
          ++ (v ++ (('p' :: ((e5 :: d5) ++ (getLit ++ (b ++ '&' :: paramS)))) ++ w))) := by
      simp [List.append_assoc]
    have hsk : (u ++ ('l' :: '9' :: ((e1 :: d1) ++ (pathB ++ '&' :: paramB))) ++ v
          ++ ('p' :: ((e5 :: d5) ++ (getLit ++ (b ++ '&' :: paramS)))) ++ w)[
        u.length + k]?
        = ('l' :: '9' :: ((e1 :: d1) ++ (pathB ++ '&' :: paramB)))[k]? := by
      rw [hsh, getElem_append_add, getElem_append_lt hk]
    obtain ⟨c, hc⟩ : ∃ c,
        ('l' :: '9' :: ((e1 :: d1) ++ (pathB ++ '&' :: paramB)))[k]? = some c :=
      ⟨_, List.getElem?_eq_getElem hk⟩
    by_cases hcn : c = '&'
    · subst hcn
      have hk20 : k = (e1 :: d1).length + pathB.length + 2 :=
        amp_unique_L hd1 (by decide) (by decide) hc
      rcases (ampRel_subst rule5 _).getElem_eq (u.length + k) with he | he
      · rw [he, hsk, hc]
      · exfalso
        have hYl : (u ++ ('l' :: '9' :: ((e1 :: d1) ++ (pathB ++ '&' :: paramB))) ++ v
              ++ ('p' :: ((e5 :: d5) ++ (getLit ++ (b ++ '&' :: paramS)))) ++ w)[
            u.length + k + 1 + 0]? = some 'l' := by
          have hM1l : ('l' :: '9' :: ((e1 :: d1) ++ (pathB ++ '&' :: paramB)))[
              ((e1 :: d1).length + pathB.length + 2) + (0 + 1)]? = paramB[0]? :=
            getElem_param_L '&' 0
          rw [show u.length + k + 1 + 0
              = u.length + (((e1 :: d1).length + pathB.length + 2) + (0 + 1)) by
                omega,
            hsh, getElem_append_add,
            getElem_append_lt (by
              simp only [List.length_cons, List.length_append]
              have hq : paramB.length = 6 := by decide
              omega),
            hM1l]
          decide
        exact noflip_of_param_mismatch 0 's' 'l' (by decide) hYl (by decide)
          he.1 he.2
    · rw [(ampRel_subst rule5 _).getElem_of_ne_amp (hsk.trans hc) hcn, hc]

/-- Witness for C7 at concrete digits, body and contexts; the
disjointness hypothesis holds since the concrete rule-5 block contains no
`l` at all. -/
theorem c7_non_interference_witness :
    (subst rule1 (("x ".toList)
        ++ ('l' :: '9' :: (('0' :: "01".toList) ++ (pathB ++ '&' :: paramB)))
        ++ (" y ".toList)
        ++ ('p' :: (('5' :: ([] : List Char)) ++ (getLit ++ ("record".toList ++ '&' :: paramS))))
        ++ ("\" z".toList)))[
      (("x ".toList)
        ++ ('l' :: '9' :: (('0' :: "01".toList) ++ (pathB ++ '&' :: paramB)))
        ++ (" y ".toList)).length + 0]?
      = ('p' :: (('5' :: ([] : List Char)) ++ (getLit ++ ("record".toList ++ '&' :: paramS))))[0]?
    ∧ (subst rule5 (("x ".toList)
        ++ ('l' :: '9' :: (('0' :: "01".toList) ++ (pathB ++ '&' :: paramB)))
        ++ (" y ".toList)
        ++ ('p' :: (('5' :: ([] : List Char)) ++ (getLit ++ ("record".toList ++ '&' :: paramS))))
        ++ ("\" z".toList)))[("x ".toList).length + 0]?
      = ('l' :: '9' :: (('0' :: "01".toList) ++ (pathB ++ '&' :: paramB)))[0]? := by
  have h := c7_non_interference '0' '5' ("01".toList) [] ("x ".toList)
    (" y ".toList) ("\" z".toList) ("record".toList)
    (by decide) (by decide) (by decide) (by decide)
    (fun mid hmid hne => seg_of_ne_sc (by decide) mid hmid hne)
  exact ⟨h.1 0 (by decide), h.2 0 (by decide)⟩

end Refactor
